import Mathlib

/-!
Verification of the edgetpu/gcip host-side control plane (linux-pixel repository).

Shallow embedding of:
- the address-mapping tracker (`edgetpu-mapping.c` body included in
  `gcip-kernel-driver/include/gcip/gcip-ikf.h` of the excerpt);
- the in-kernel fence awaiter (`gcip-ikf.c`) as an interleaving transition system;
- the VII kernel-synthesized response codes (`edgetpu-kci.h`);
- the wakelock acquire/release ioctls and group-scoped ioctls (`edgetpu-fs.c`);
- client removal (`edgetpu_client_remove`).

Machine integers: device addresses and sizes are `tpu_addr_t`/`size_t`; the
operations verified here never overflow for the inputs considered, so they are
modelled as `Nat`.  Error codes are `Int` (negative errnos).
-/

namespace LinuxPixel

/-! ### Linux errno values (asm-generic) -/

def EPERM : Int := 1
def EAGAIN : Int := 11
def ENOMEM : Int := 12
def EFAULT : Int := 14
def EBUSY : Int := 16
def EINVAL : Int := 22
def EOPNOTSUPP : Int := 95
def ETIMEDOUT : Int := 110
def ERESTARTSYS : Int := 512

/-! ### Address-mapping tracker (`edgetpu-mapping.c`)

`struct edgetpu_mapping`: we keep the fields the tracker code reads:
`gcip_mapping->device_address`, `gcip_mapping->size`, and whether the
`release` callback is set (`map->release`). -/

structure EdgetpuMapping where
  device_address : Nat
  size : Nat
  hasRelease : Bool
deriving DecidableEq, Repr

/-- The red-black tree `mappings->rb`.  The kernel `rb_*` helpers only
rebalance; the contents and the binary-search-tree ordering on
`device_address` are what the driver code relies on, so the tree is embedded
as a plain binary search tree (rebalancing by `rb_insert_color` does not
change membership or ordering). -/
inductive MapTree where
  | leaf : MapTree
  | node (l : MapTree) (m : EdgetpuMapping) (r : MapTree) : MapTree
deriving DecidableEq, Repr

/-- `struct edgetpu_mapping_root`: the tree plus the `count` field. -/
structure MappingRoot where
  rb : MapTree
  count : Nat
deriving DecidableEq, Repr

/-- `edgetpu_mapping_init`: empty tree, count 0. -/
def edgetpu_mapping_init : MappingRoot := ⟨MapTree.leaf, 0⟩

/-- `compare(map, iova)`: -1, 0, 1 if `map->gcip_mapping->device_address` is
less than, equal to, or larger than `iova`. -/
def compare (m : EdgetpuMapping) (iova : Nat) : Int :=
  if m.device_address ≠ iova then
    if m.device_address < iova then -1 else 1
  else 0

/-- The descent loop of `edgetpu_mapping_add`: walk down comparing the new
mapping's `device_address` with each node (`cmp > 0` goes left, `cmp < 0`
goes right), link the node at the leaf; an equal key aborts (`goto out`,
keeping `ret = -EBUSY`). -/
def addLocked (t : MapTree) (m : EdgetpuMapping) : Option MapTree :=
  match t with
  | .leaf => some (.node .leaf m .leaf)
  | .node l this r =>
    let cmp := compare this m.device_address
    if cmp > 0 then (addLocked l m).map (fun l2 => .node l2 this r)
    else if cmp < 0 then (addLocked r m).map (fun r2 => .node l this r2)
    else none

/-- `edgetpu_mapping_add`: rejects a mapping without a release callback with
-EINVAL, otherwise inserts keyed on `device_address`, returning -EBUSY (the
initial value of `ret`) when the key is already present. -/
def edgetpu_mapping_add (root : MappingRoot) (m : EdgetpuMapping) : Int × MappingRoot :=
  if !m.hasRelease then (-EINVAL, root)
  else
    match addLocked root.rb m with
    | some t => (0, ⟨t, root.count + 1⟩)
    | none => (-EBUSY, root)

/-- `edgetpu_mapping_find_locked`: binary search by exact `device_address`. -/
def edgetpu_mapping_find_locked (t : MapTree) (iova : Nat) : Option EdgetpuMapping :=
  match t with
  | .leaf => none
  | .node l m r =>
    let cmp := compare m iova
    if cmp > 0 then edgetpu_mapping_find_locked l iova
    else if cmp < 0 then edgetpu_mapping_find_locked r iova
    else some m

/-- `iova_in_mapping(map, iova)`: -1 if the whole range is below `iova`,
1 if `iova` is below the range, 0 if `iova` falls inside
`[device_address, device_address + size)`. -/
def iova_in_mapping (m : EdgetpuMapping) (iova : Nat) : Int :=
  if m.device_address + m.size ≤ iova then -1
  else if iova < m.device_address then 1
  else 0

/-- `edgetpu_mapping_find_iova_range`: binary search guided by
`iova_in_mapping`. -/
def edgetpu_mapping_find_iova_range (t : MapTree) (iova : Nat) : Option EdgetpuMapping :=
  match t with
  | .leaf => none
  | .node l m r =>
    let cmp := iova_in_mapping m iova
    if cmp > 0 then edgetpu_mapping_find_iova_range l iova
    else if cmp < 0 then edgetpu_mapping_find_iova_range r iova
    else some m

/-- In-order listing of the tree: the `rb_first`/`rb_next` iteration order
used by `edgetpu_mappings_total_size` and `edgetpu_mappings_show`. -/
def inorder : MapTree → List EdgetpuMapping
  | .leaf => []
  | .node l m r => inorder l ++ m :: inorder r

/-- `edgetpu_mappings_total_size`: iterate `rb_first`/`rb_next`, accumulating
`map->gcip_mapping->size` into `total` (starting from 0). -/
def edgetpu_mappings_total_size (t : MapTree) : Nat :=
  (inorder t).foldl (fun total m => total + m.size) 0

/-- The multiset of mappings present in the tracker (specification-side view,
independent of traversal order). -/
def presentMappings : MapTree → Multiset EdgetpuMapping
  | .leaf => 0
  | .node l m r => m ::ₘ (presentMappings l + presentMappings r)

/-- `iova` lies in `[device_address, device_address + size)`. -/
def containsIova (m : EdgetpuMapping) (iova : Nat) : Prop :=
  m.device_address ≤ iova ∧ iova < m.device_address + m.size

instance (m : EdgetpuMapping) (iova : Nat) : Decidable (containsIova m iova) := by
  unfold containsIova; infer_instance

/-- Two device-address ranges overlap. -/
def rangesOverlap (a b : EdgetpuMapping) : Prop :=
  a.device_address < b.device_address + b.size ∧ b.device_address < a.device_address + a.size

instance (a b : EdgetpuMapping) : Decidable (rangesOverlap a b) := by
  unfold rangesOverlap; infer_instance

/-- Binary-search-tree ordering on `device_address`: what the insertion loop
of `edgetpu_mapping_add` establishes and all the lookups rely on. -/
def IsBST : MapTree → Prop
  | .leaf => True
  | .node l m r =>
      IsBST l ∧ IsBST r ∧
      (∀ x ∈ inorder l, x.device_address < m.device_address) ∧
      (∀ x ∈ inorder r, m.device_address < x.device_address)

instance : ∀ t : MapTree, Decidable (IsBST t)
  | .leaf => by unfold IsBST; infer_instance
  | .node l m r =>
      have _ := instDecidableIsBST l
      have _ := instDecidableIsBST r
      by unfold IsBST; infer_instance

/-- Live mappings have pairwise non-overlapping device-address ranges. -/
def PairwiseNonOverlap (t : MapTree) : Prop :=
  (inorder t).Pairwise (fun a b => ¬ rangesOverlap a b)

instance (t : MapTree) : Decidable (PairwiseNonOverlap t) := by
  unfold PairwiseNonOverlap; infer_instance

/-! ### VII kernel-synthesized response codes (`edgetpu-kci.h`) -/

def VII_RESPONSE_CODE_KERNEL_BASE : Nat := 2 ^ 15

/-- Command timed out after being submitted. -/
def VII_RESPONSE_CODE_KERNEL_CMD_TIMEOUT : Nat := VII_RESPONSE_CODE_KERNEL_BASE + 0

/-- Command failed to enqueue asynchronously after its dependencies were met. -/
def VII_RESPONSE_CODE_KERNEL_ENQUEUE_FAILED : Nat := VII_RESPONSE_CODE_KERNEL_BASE + 1

/-- Command never submitted due to an in-fence dependency receiving an error signal. -/
def VII_RESPONSE_CODE_KERNEL_FENCE_ERROR : Nat := VII_RESPONSE_CODE_KERNEL_BASE + 2

/-- Command never submitted due to an in-fence dependency timing out. -/
def VII_RESPONSE_CODE_KERNEL_FENCE_TIMEOUT : Nat := VII_RESPONSE_CODE_KERNEL_BASE + 3

/-- Command canceled due to the firmware crash or un-graceful group release. -/
def VII_RESPONSE_CODE_KERNEL_CANCELED : Nat := VII_RESPONSE_CODE_KERNEL_BASE + 4

/-- `struct edgetpu_vii_response` (the fields relevant here): sequence number,
16-bit result code, and the command-dependent return value. -/
structure EdgetpuViiResponse where
  seq : Nat
  code : Nat
  retval : Nat
deriving DecidableEq, Repr

/-- `code` fits the `__u16` field of `struct edgetpu_vii_response`. -/
def fitsU16 (c : Nat) : Prop := c < 2 ^ 16

instance (c : Nat) : Decidable (fitsU16 c) := by
  unfold fitsU16; infer_instance

/-- Modelled from the spec: firmware-native VII response codes are drawn from
the range below `VII_RESPONSE_CODE_KERNEL_BASE`; codes at or above the base
are reserved for responses synthesized by the kernel driver and are never
produced by firmware (the response-synthesis code itself, edgetpu-ikv.c, is
not part of the excerpt). -/
def firmwareNativeCode (c : Nat) : Prop := c < VII_RESPONSE_CODE_KERNEL_BASE

instance (c : Nat) : Decidable (firmwareNativeCode c) := by
  unfold firmwareNativeCode; infer_instance

/-- Modelled from the spec: the kernel-synthesized cancellation response for a
command canceled by a firmware crash or forced group teardown; per the
`VII_RESPONSE_CODE_KERNEL_CANCELED` documentation, `retval` is the fatal error
event bitmask (`EDGETPU_ERROR_*`) which caused the cancellation. -/
def mkKernelCanceledResponse (seq fatalErrorBitmask : Nat) : EdgetpuViiResponse :=
  ⟨seq, VII_RESPONSE_CODE_KERNEL_CANCELED, fatalErrorBitmask⟩

/-- The set of kernel-synthesized response codes defined by `edgetpu-kci.h`. -/
def kernelResponseCodes : List Nat :=
  [VII_RESPONSE_CODE_KERNEL_CMD_TIMEOUT,
   VII_RESPONSE_CODE_KERNEL_ENQUEUE_FAILED,
   VII_RESPONSE_CODE_KERNEL_FENCE_ERROR,
   VII_RESPONSE_CODE_KERNEL_FENCE_TIMEOUT,
   VII_RESPONSE_CODE_KERNEL_CANCELED]

/-! ### Device-file layer (`edgetpu-fs.c`)

Each ioctl handler is embedded as a function from its client state and an
environment (the outcomes of external collaborators: user-memory copies,
power management, thermal state, the group-level operations it delegates to)
to its return value, the updated client state where relevant, and the ordered
list of externally visible side effects it performed. -/

/-- Externally visible side effects performed by the fs layer. -/
inductive FsEffect where
  | pmGet : FsEffect
  | pmPut : FsEffect
  | attachMailbox : FsEffect
  | detachMailbox : FsEffect
  | groupMap : FsEffect
  | groupUnmap : FsEffect
  | groupSyncBuffer : FsEffect
  | dmabufMap : FsEffect
  | dmabufUnmap : FsEffect
  | viiCommand : FsEffect
  | viiResponse : FsEffect
  | setEventfd : FsEffect
  | unsetEventfd : FsEffect
  | syncFenceCreate : FsEffect
  | groupLeave : FsEffect
  | extClientRemove : FsEffect
  | telemetryUnsetEvent : FsEffect
deriving DecidableEq, Repr

/-- Number of occurrences of effect `e` in trace `tr`. -/
def countEffect (tr : List FsEffect) (e : FsEffect) : Nat :=
  (tr.filter (fun x => x = e)).length

/-- Effect `a` occurs strictly before effect `b` in `tr`. -/
def effectBefore (tr : List FsEffect) (a b : FsEffect) : Prop :=
  ∃ i j, i < j ∧ tr.get? i = some a ∧ tr.get? j = some b

/-- `struct edgetpu_wakelock`: the outstanding-request count (the only field
these claims depend on). -/
structure Wakelock where
  req_count : Nat
deriving DecidableEq, Repr

/-- Modelled from the spec: `edgetpu_wakelock_acquire` (edgetpu-wakelock.h is
not part of the excerpt; only its callers are).  Per the spec's Wakelock
contract and the call sites in `edgetpu_ioctl_acquire_wakelock` (which treat
return value 0 as the 0-to-1 crossing and log `count + 1` as the new count),
it increments the count and returns the previous count. -/
def edgetpu_wakelock_acquire (w : Wakelock) : Int × Wakelock :=
  ((w.req_count : Int), ⟨w.req_count + 1⟩)

/-- Modelled from the spec: `edgetpu_wakelock_release` fails with a negative
error if the count is already zero, otherwise decrements and returns the new
count (its caller treats return value 0 as the 1-to-0 crossing). -/
def edgetpu_wakelock_release (w : Wakelock) : Int × Wakelock :=
  if w.req_count = 0 then (-EINVAL, w)
  else ((w.req_count - 1 : Nat) , ⟨w.req_count - 1⟩)

/-- The client state the fs-layer claims depend on: group membership (by
group id) and the wakelock. -/
structure Client where
  group : Option Nat
  wakelock : Wakelock
deriving DecidableEq, Repr

/-- External outcomes consumed by `edgetpu_ioctl_acquire_wakelock`. -/
structure AcquireEnv where
  thermalSuspended : Bool
  pmGetRet : Int
  attachRet : Int
deriving Repr

/-- `edgetpu_ioctl_acquire_wakelock`: fail -EAGAIN while thermally suspended;
`edgetpu_pm_get`; on a 0-to-1 crossing with a group, call
`edgetpu_group_attach_and_open_mailbox`; if the attach fails, release the
wakelock again and drop the power vote. -/
def edgetpu_ioctl_acquire_wakelock (env : AcquireEnv) (c : Client) :
    Int × Client × List FsEffect :=
  if env.thermalSuspended then (-EAGAIN, c, [])
  else if env.pmGetRet ≠ 0 then (env.pmGetRet, c, [.pmGet])
  else
    let (count, w1) := edgetpu_wakelock_acquire c.wakelock
    if count = 0 ∧ c.group.isSome then
      if env.attachRet ≠ 0 then
        let (_, w2) := edgetpu_wakelock_release w1
        (env.attachRet, ⟨c.group, w2⟩, [.pmGet, .attachMailbox, .pmPut])
      else (0, ⟨c.group, w1⟩, [.pmGet, .attachMailbox])
    else (0, ⟨c.group, w1⟩, [.pmGet])

/-- `edgetpu_ioctl_release_wakelock`: release the wakelock (propagating a
negative error without further effects); on the 1-to-0 crossing with a group,
`edgetpu_group_close_and_detach_mailbox`; then `edgetpu_pm_put`. -/
def edgetpu_ioctl_release_wakelock (c : Client) : Int × Client × List FsEffect :=
  let (count, w1) := edgetpu_wakelock_release c.wakelock
  if count < 0 then (count, c, [])
  else if count = 0 ∧ c.group.isSome then
    (0, ⟨c.group, w1⟩, [.detachMailbox, .pmPut])
  else (0, ⟨c.group, w1⟩, [.pmPut])

/-- The acquire call both engages power and crosses 0-to-1 with a group
attached: thermal check passed, `edgetpu_pm_get` succeeded, previous count
was 0 and the client owns a group. -/
def acquireCrossing (env : AcquireEnv) (c : Client) : Prop :=
  env.thermalSuspended = false ∧ env.pmGetRet = 0 ∧
    c.wakelock.req_count = 0 ∧ c.group.isSome

instance (env : AcquireEnv) (c : Client) : Decidable (acquireCrossing env c) := by
  unfold acquireCrossing; infer_instance

/-- The release call crosses 1-to-0 with a group attached. -/
def releaseCrossing (c : Client) : Prop :=
  c.wakelock.req_count = 1 ∧ c.group.isSome

instance (c : Client) : Decidable (releaseCrossing c) := by
  unfold releaseCrossing; infer_instance

/-! #### Group-scoped ioctls

Each handler takes the outcome of `copy_from_user` (`copyOk`), the client,
and the return values of the operations it delegates to.  `trace_*` calls are
fire-and-forget telemetry and are not modelled as side effects. -/

/-- `edgetpu_ioctl_set_eventfd`. -/
def edgetpu_ioctl_set_eventfd (copyOk : Bool) (c : Client) (setRet : Int) :
    Int × List FsEffect :=
  if !copyOk then (-EFAULT, [])
  else if c.group.isNone then (-EINVAL, [])
  else (setRet, [.setEventfd])

/-- `edgetpu_ioctl_unset_eventfd`. -/
def edgetpu_ioctl_unset_eventfd (c : Client) : Int × List FsEffect :=
  if c.group.isNone then (-EINVAL, [])
  else (0, [.unsetEventfd])

/-- `edgetpu_ioctl_map_buffer`: copy in, check group membership, delegate to
`edgetpu_device_group_map`; if the copy back of the ioctl struct fails, undo
the map via `edgetpu_device_group_unmap` and fail -EFAULT. -/
def edgetpu_ioctl_map_buffer (copyOk : Bool) (c : Client) (mapRet : Int)
    (copyOutOk : Bool) : Int × List FsEffect :=
  if !copyOk then (-EFAULT, [])
  else if c.group.isNone then (-EINVAL, [])
  else if mapRet ≠ 0 then (mapRet, [.groupMap])
  else if copyOutOk then (0, [.groupMap])
  else (-EFAULT, [.groupMap, .groupUnmap])

/-- `edgetpu_ioctl_unmap_buffer`. -/
def edgetpu_ioctl_unmap_buffer (copyOk : Bool) (c : Client) (unmapRet : Int) :
    Int × List FsEffect :=
  if !copyOk then (-EFAULT, [])
  else if c.group.isNone then (-EINVAL, [])
  else (unmapRet, [.groupUnmap])

/-- `edgetpu_ioctl_sync_buffer`. -/
def edgetpu_ioctl_sync_buffer (copyOk : Bool) (c : Client) (syncRet : Int) :
    Int × List FsEffect :=
  if !copyOk then (-EFAULT, [])
  else if c.group.isNone then (-EINVAL, [])
  else (syncRet, [.groupSyncBuffer])

/-- `edgetpu_ioctl_map_dmabuf`: like `edgetpu_ioctl_map_buffer` with
`edgetpu_map_dmabuf`/`edgetpu_unmap_dmabuf`. -/
def edgetpu_ioctl_map_dmabuf (copyOk : Bool) (c : Client) (mapRet : Int)
    (copyOutOk : Bool) : Int × List FsEffect :=
  if !copyOk then (-EFAULT, [])
  else if c.group.isNone then (-EINVAL, [])
  else if mapRet ≠ 0 then (mapRet, [.dmabufMap])
  else if copyOutOk then (0, [.dmabufMap])
  else (-EFAULT, [.dmabufMap, .dmabufUnmap])

/-- `edgetpu_ioctl_unmap_dmabuf`. -/
def edgetpu_ioctl_unmap_dmabuf (copyOk : Bool) (c : Client) (unmapRet : Int) :
    Int × List FsEffect :=
  if !copyOk then (-EFAULT, [])
  else if c.group.isNone then (-EINVAL, [])
  else (unmapRet, [.dmabufUnmap])

/-- `edgetpu_ioctl_sync_fence_create`: copy in, require group membership,
delegate to `edgetpu_sync_fence_create`, then copy the fd back out. -/
def edgetpu_ioctl_sync_fence_create (copyOk : Bool) (c : Client) (createRet : Int)
    (copyOutOk : Bool) : Int × List FsEffect :=
  if !copyOk then (-EFAULT, [])
  else if c.group.isNone then (-EINVAL, [])
  else if createRet ≠ 0 then (createRet, [.syncFenceCreate])
  else if copyOutOk then (0, [.syncFenceCreate])
  else (-EFAULT, [.syncFenceCreate])

/-- `edgetpu_ioctl_vii_command`: copy in, then reject with -EOPNOTSUPP unless
in-kernel VII with the flatbuffer format is in use, then check group
membership, build the fence arrays, and delegate to
`edgetpu_device_group_send_vii_command`. -/
def edgetpu_ioctl_vii_command (copyOk : Bool) (useIkv fmtFlatbuffer : Bool)
    (c : Client) (inFenceRet outFenceRet : Int) (sendRet : Int) :
    Int × List FsEffect :=
  if !copyOk then (-EFAULT, [])
  else if !(useIkv && fmtFlatbuffer) then (-EOPNOTSUPP, [])
  else if c.group.isNone then (-EINVAL, [])
  else if inFenceRet ≠ 0 then (inFenceRet, [])
  else if outFenceRet ≠ 0 then (outFenceRet, [])
  else (sendRet, [.viiCommand])

/-- `edgetpu_ioctl_vii_response`: reject with -EOPNOTSUPP unless in-kernel VII
with the flatbuffer format is in use, check group membership, delegate to
`edgetpu_device_group_get_vii_response`, copy the response out. -/
def edgetpu_ioctl_vii_response (useIkv fmtFlatbuffer : Bool) (c : Client)
    (getRet : Int) (copyOutOk : Bool) : Int × List FsEffect :=
  if !(useIkv && fmtFlatbuffer) then (-EOPNOTSUPP, [])
  else if c.group.isNone then (-EINVAL, [])
  else if getRet ≠ 0 then (getRet, [.viiResponse])
  else if copyOutOk then (0, [.viiResponse])
  else (-EFAULT, [.viiResponse])

/-! #### Client removal (`edgetpu_client_remove`, common support code) -/

/-- The client state read by `edgetpu_client_remove`: group membership, the
wakelock request count snapshot taken at entry, and the per-die event
registrations. -/
structure RemoveClientSt where
  group : Option Nat
  wakelockReqCount : Nat
  perdieLogEvent : Bool
  perdieTraceEvent : Bool
deriving DecidableEq, Repr

/-- `edgetpu_client_remove`: snapshot `wakelock.req_count`, (mark the group
device-inaccessible when the count is 0 — bookkeeping on the group, not an
external effect), unlink the client from the device list, leave the device
group if a member, clean up external-mailbox state and per-die events, drop
the client reference, then call `edgetpu_pm_put` once per wakelock
acquisition held at removal time. -/
def edgetpu_client_remove (c : RemoveClientSt) : List FsEffect :=
  (if c.group.isSome then [FsEffect.groupLeave] else []) ++
  [FsEffect.extClientRemove] ++
  (if c.perdieLogEvent then [FsEffect.telemetryUnsetEvent] else []) ++
  (if c.perdieTraceEvent then [FsEffect.telemetryUnsetEvent] else []) ++
  List.replicate c.wakelockReqCount FsEffect.pmPut

/-! ### In-kernel fence awaiter (`gcip-ikf.c`) -/

/-- The outcomes of the external calls made by `gcip_ikf_wait_timeout`:
whether a fence was passed, whether `kzalloc` succeeded, and the result of
`kthread_create` (0 for success, the negative errno of `PTR_ERR` otherwise). -/
structure IkfWaitEnv where
  fencePresent : Bool
  allocOk : Bool
  kthreadCreateRet : Int
deriving Repr

/-- The return value of `gcip_ikf_wait_timeout`: -EINVAL without a fence,
-ENOMEM on allocation failure, the `kthread_create` error if thread creation
failed, and — under `threads_lock` — -EPERM when `awaiter->stop_threads` is
already set; only otherwise is the thread enqueued and woken (0). -/
def gcip_ikf_wait_timeout_result (stopThreads : Bool) (env : IkfWaitEnv) : Int :=
  if !env.fencePresent then -EINVAL
  else if !env.allocOk then -ENOMEM
  else if env.kthreadCreateRet ≠ 0 then env.kthreadCreateRet
  else if stopThreads then -EPERM
  else 0

/-! #### The awaiter/waiter-thread transition system

`gcip_ikf_thread_func` (one instance per accepted wait) and
`gcip_ikf_awaiter_exit` are embedded as an interleaving transition system.
Shared state: `stop_threads`, the thread list (`inList` per waiter), each
thread's `signaled` flag and each task's kthread-stop flag (`shouldStop`,
set by `kthread_stop`), and the ordered list of `signaled_cb` invocations
(the awaiter is assumed to have been initialized with a callback).
Thread-local actions are grouped into the atomic steps between the
synchronizing operations the code uses (`threads_lock`, the synchronous
`kthread_stop`). -/

/-- `MAX_SCHEDULE_TIMEOUT` (`LONG_MAX`). -/
def MAX_SCHEDULE_TIMEOUT : Int := 2 ^ 63 - 1

/-- Program counter of `gcip_ikf_thread_func`:
`waiting` = blocked in `dma_fence_wait_timeout`;
`checkStop` = about to test `kthread_should_stop()`;
`setSig` = about to write `thread->signaled = true` (then normalize
`wait_status`); `cb` = about to invoke `awaiter->signaled_cb`;
`lockCheck` = at the `out:` label, about to take `threads_lock` and test
`stop_threads`; `done` = the thread function returned. -/
inductive WaiterPc where
  | waiting : WaiterPc
  | checkStop : WaiterPc
  | setSig : WaiterPc
  | cb : WaiterPc
  | lockCheck : WaiterPc
  | done : WaiterPc
deriving DecidableEq, Repr

/-- One `struct gcip_ikf_thread` together with its task state. -/
structure Waiter where
  pc : WaiterPc
  /-- The task's kthread-stop flag, set by `kthread_stop()`. -/
  shouldStop : Bool
  /-- `thread->signaled`. -/
  signaled : Bool
  /-- The thread-local `wait_status`. -/
  waitStatus : Int
  /-- Whether the DMA fence this thread waits on has been signaled. -/
  fenceSignaled : Bool
  /-- Whether `thread->node` is linked in `awaiter->threads`. -/
  inList : Bool
deriving DecidableEq, Repr

/-- Progress of `gcip_ikf_awaiter_exit`: not yet called; iterating with the
next list position to examine (`loop k`); blocked in the synchronous
`kthread_stop` for position `k` (`stopping k`); returned (`finished`). -/
inductive ExitPc where
  | notCalled : ExitPc
  | loop (k : Nat) : ExitPc
  | stopping (k : Nat) : ExitPc
  | finished : ExitPc
deriving DecidableEq, Repr

/-- Global state: the waiter threads (list position = insertion order),
`awaiter->stop_threads`, the progress of `gcip_ikf_awaiter_exit`, and the
ordered log of `signaled_cb` invocations as (waiter index, `wait_status`). -/
structure IkfSys where
  waiters : List Waiter
  stopThreads : Bool
  exitPc : ExitPc
  log : List (Nat × Int)
deriving DecidableEq, Repr

/-- Scheduling labels: external fence signal, the waiter-thread steps, and
the exit steps. `wakeSignaled`/`wakeTimeout`/`wakeStopped` are the three ways
`dma_fence_wait_timeout` can return (signaled with remaining time `r + 1`,
timeout, interrupted by `kthread_stop`). -/
inductive IkfLabel where
  | signalFence (i : Nat) : IkfLabel
  | wakeSignaled (i : Nat) (r : Nat) : IkfLabel
  | wakeTimeout (i : Nat) : IkfLabel
  | wakeStopped (i : Nat) : IkfLabel
  | waiterCheckStop (i : Nat) : IkfLabel
  | waiterSetSignaled (i : Nat) : IkfLabel
  | waiterCallback (i : Nat) : IkfLabel
  | waiterLock (i : Nat) : IkfLabel
  | exitStart : IkfLabel
  | exitStep : IkfLabel
deriving DecidableEq, Repr

/-- The `wait_status` normalization done after `thread->signaled = true`:
0 becomes -ETIMEDOUT; `MAX_SCHEDULE_TIMEOUT` (no timeout was requested)
becomes 0. -/
def normStatus (st : Int) : Int :=
  if st = 0 then -ETIMEDOUT
  else if st = MAX_SCHEDULE_TIMEOUT then 0
  else st

/-- One atomic step.  `none` means the label is not enabled in `s`. -/
def ikfStep (l : IkfLabel) (s : IkfSys) : Option IkfSys :=
  match l with
  | .signalFence i =>
    match s.waiters[i]? with
    | some w => some { s with waiters := s.waiters.set i { w with fenceSignaled := true } }
    | none => none
  | .wakeSignaled i r =>
    match s.waiters[i]? with
    | some w =>
      if w.pc = .waiting ∧ w.fenceSignaled = true then
        some { s with waiters :=
          s.waiters.set i { w with pc := .checkStop, waitStatus := (r : Int) + 1 } }
      else none
    | none => none
  | .wakeTimeout i =>
    match s.waiters[i]? with
    | some w =>
      if w.pc = .waiting ∧ w.fenceSignaled = false then
        some { s with waiters :=
          s.waiters.set i { w with pc := .checkStop, waitStatus := 0 } }
      else none
    | none => none
  | .wakeStopped i =>
    match s.waiters[i]? with
    | some w =>
      if w.pc = .waiting ∧ w.shouldStop = true then
        some { s with waiters :=
          s.waiters.set i { w with pc := .checkStop, waitStatus := -ERESTARTSYS } }
      else none
    | none => none
  | .waiterCheckStop i =>
    match s.waiters[i]? with
    | some w =>
      if w.pc = .checkStop then
        some { s with waiters :=
          s.waiters.set i { w with pc := if w.shouldStop then .lockCheck else .setSig } }
      else none
    | none => none
  | .waiterSetSignaled i =>
    match s.waiters[i]? with
    | some w =>
      if w.pc = .setSig then
        some { s with waiters :=
          s.waiters.set i { w with
            pc := .cb, signaled := true, waitStatus := normStatus w.waitStatus } }
      else none
    | none => none
  | .waiterCallback i =>
    match s.waiters[i]? with
    | some w =>
      if w.pc = .cb then
        some { s with
          waiters := s.waiters.set i { w with pc := .lockCheck },
          log := s.log ++ [(i, w.waitStatus)] }
      else none
    | none => none
  | .waiterLock i =>
    match s.waiters[i]? with
    | some w =>
      if w.pc = .lockCheck then
        if s.stopThreads then
          some { s with waiters := s.waiters.set i { w with pc := .done } }
        else
          some { s with waiters := s.waiters.set i { w with pc := .done, inList := false } }
      else none
    | none => none
  | .exitStart =>
    if s.exitPc = .notCalled then
      some { s with stopThreads := true, exitPc := .loop 0 }
    else none
  | .exitStep =>
    match s.exitPc with
    | .loop k =>
      match s.waiters[k]? with
      | none => some { s with exitPc := .finished }
      | some w =>
        if w.inList then
          some { s with
            waiters := s.waiters.set k { w with shouldStop := true },
            exitPc := .stopping k }
        else some { s with exitPc := .loop (k + 1) }
    | .stopping k =>
      match s.waiters[k]? with
      | some w =>
        if w.pc = .done then
          some { s with
            log := if w.signaled then s.log else s.log ++ [(k, -ERESTARTSYS)],
            waiters := s.waiters.set k { w with inList := false },
            exitPc := .loop (k + 1) }
        else none
      | none => none
    | _ => none

/-- Run a schedule; `none` if any label is not enabled when reached. -/
def ikfRun (ls : List IkfLabel) (s : IkfSys) : Option IkfSys :=
  match ls with
  | [] => some s
  | l :: rest => (ikfStep l s).bind (ikfRun rest)

/-- A freshly accepted wait: thread on the list, blocked on the fence. -/
def initWaiter : Waiter :=
  ⟨.waiting, false, false, 0, false, true⟩

/-- Initial state with `n` outstanding waits and exit not yet called. -/
def ikfInit (n : Nat) : IkfSys :=
  ⟨List.replicate n initWaiter, false, .notCalled, []⟩

/-- The callback invocations recorded for waiter `i`. -/
def logFor (log : List (Nat × Int)) (i : Nat) : List (Nat × Int) :=
  log.filter (fun e => e.1 = i)

/-- `gcip_ikf_awaiter_exit` has already examined list position `i`. -/
def eProcessed (e : ExitPc) (i : Nat) : Prop :=
  match e with
  | .notCalled => False
  | .loop k => i < k
  | .stopping k => i < k
  | .finished => True

instance (e : ExitPc) (i : Nat) : Decidable (eProcessed e i) := by
  unfold eProcessed; cases e <;> infer_instance

/-- A terminal callback status: fence signaled (with the remaining timeout,
`≥ 0`), timed out (-ETIMEDOUT) or canceled (-ERESTARTSYS). -/
def TerminalStatus (st : Int) : Prop :=
  0 ≤ st ∨ st = -ETIMEDOUT ∨ st = -ERESTARTSYS

instance (st : Int) : Decidable (TerminalStatus st) := by
  unfold TerminalStatus; infer_instance

/-- The callback log entries waiter `i` accounts for, as a function of its
state and the exit progress: a waiter that set its `signaled` flag and went
past the callback owns its own entry; an unsignaled waiter already swept by
`gcip_ikf_awaiter_exit` owns the cancellation entry; otherwise none. -/
def expectedLogFor (e : ExitPc) (i : Nat) (w : Waiter) : List (Nat × Int) :=
  if w.signaled = true ∧ (w.pc = .lockCheck ∨ w.pc = .done) then [(i, w.waitStatus)]
  else if eProcessed e i ∧ w.signaled = false then [(i, -ERESTARTSYS)]
  else []

/-- Per-waiter inductive invariant of the transition system. -/
def WaiterInv (stop : Bool) (e : ExitPc) (log : List (Nat × Int)) (i : Nat)
    (w : Waiter) : Prop :=
  (w.shouldStop = true → stop = true) ∧
  (w.inList = false → w.pc = .done ∧ (w.signaled = true ∨ eProcessed e i)) ∧
  (eProcessed e i → w.inList = false) ∧
  (w.signaled = true → w.pc = .cb ∨ w.pc = .lockCheck ∨ w.pc = .done) ∧
  (w.pc = .checkStop →
    (0 ≤ w.waitStatus ∨ w.waitStatus = -ERESTARTSYS) ∧
    (w.waitStatus = -ERESTARTSYS → w.shouldStop = true)) ∧
  (w.pc = .setSig → 0 ≤ w.waitStatus) ∧
  (w.pc = .cb →
    (TerminalStatus w.waitStatus ∧ w.waitStatus ≠ -ERESTARTSYS) ∧ w.signaled = true) ∧
  (w.signaled = true ∧ (w.pc = .lockCheck ∨ w.pc = .done) →
    TerminalStatus w.waitStatus ∧ w.waitStatus ≠ -ERESTARTSYS) ∧
  (w.pc = .lockCheck → w.signaled = true ∨ w.shouldStop = true) ∧
  (logFor log i = expectedLogFor e i w)

/-- Global inductive invariant. -/
def IkfInv (n : Nat) (s : IkfSys) : Prop :=
  s.waiters.length = n ∧
  (s.exitPc ≠ .notCalled → s.stopThreads = true) ∧
  (∀ k, s.exitPc = .stopping k →
    ∃ w, s.waiters[k]? = some w ∧ w.inList = true ∧ w.shouldStop = true) ∧
  (∀ p ∈ s.log, p.1 < n) ∧
  (∀ i w, s.waiters[i]? = some w → WaiterInv s.stopThreads s.exitPc s.log i w)

theorem logFor_append (log : List (Nat × Int)) (j : Nat) (st : Int) (i : Nat) :
    logFor (log ++ [(j, st)]) i =
      logFor log i ++ (if j = i then [(j, st)] else []) := by
  simp only [logFor, List.filter_append]
  by_cases h : j = i <;> simp [h]

theorem eProcessed_implies_done {stop : Bool} {e : ExitPc} {log : List (Nat × Int)}
    {i : Nat} {w : Waiter} (h : WaiterInv stop e log i w) (hp : eProcessed e i) :
    w.pc = .done := by
  exact (h.2.1 (h.2.2.1 hp)).1

theorem not_eProcessed_of_pc_ne_done {stop : Bool} {e : ExitPc} {log : List (Nat × Int)}
    {i : Nat} {w : Waiter} (h : WaiterInv stop e log i w) (hpc : w.pc ≠ .done) :
    ¬ eProcessed e i := by
  intro hp
  exact hpc (eProcessed_implies_done h hp)

theorem signaled_false_of_early_pc {stop : Bool} {e : ExitPc} {log : List (Nat × Int)}
    {i : Nat} {w : Waiter} (h : WaiterInv stop e log i w)
    (hpc : w.pc = .waiting ∨ w.pc = .checkStop ∨ w.pc = .setSig) :
    w.signaled = false := by
  by_contra hs
  have hs2 : w.signaled = true := by
    cases hsig : w.signaled
    · exact absurd hsig hs
    · rfl
  rcases h.2.2.2.1 hs2 with h1 | h1 | h1 <;>
    rcases hpc with h2 | h2 | h2 <;> rw [h1] at h2 <;> exact WaiterPc.noConfusion h2

/-- Initially the invariant holds. -/
theorem IkfInv_init (n : Nat) : IkfInv n (ikfInit n) := by
  refine ⟨by simp [ikfInit], ?_, ?_, ?_, ?_⟩
  · intro h; exact absurd rfl h
  · intro k hk; exact ExitPc.noConfusion hk
  · intro p hp; simp [ikfInit] at hp
  · intro i w hw
    have hwval : w = initWaiter := by
      simp only [ikfInit] at hw
      rcases List.getElem?_eq_some.mp hw with ⟨hi, hval⟩
      simp [List.getElem_replicate] at hval
      exact hval.symm
    subst hwval
    refine ⟨?_, ?_, ?_, ?_, ?_, ?_, ?_, ?_, ?_, ?_⟩ <;>
      simp [initWaiter, ikfInit, eProcessed, logFor, expectedLogFor]

theorem WaiterInv_log_append_ne {stop : Bool} {e : ExitPc} {log : List (Nat × Int)}
    {i : Nat} {w : Waiter} {j : Nat} {st : Int} (h : WaiterInv stop e log i w)
    (hne : j ≠ i) : WaiterInv stop e (log ++ [(j, st)]) i w := by
  obtain ⟨c1, c2, c3, c4, c5, c6, c7, c8, c9, c10⟩ := h
  refine ⟨c1, c2, c3, c4, c5, c6, c7, c8, c9, ?_⟩
  rw [logFor_append, if_neg hne, List.append_nil]
  exact c10

theorem expectedLogFor_congr {e e2 : ExitPc} {i : Nat} (w : Waiter)
    (hiff : eProcessed e i ↔ eProcessed e2 i) :
    expectedLogFor e i w = expectedLogFor e2 i w := by
  unfold expectedLogFor
  exact if_congr Iff.rfl rfl (if_congr (and_congr_left fun _ => hiff) rfl rfl)

theorem WaiterInv_exitPc_congr {stop : Bool} {e e2 : ExitPc} {log : List (Nat × Int)}
    {i : Nat} {w : Waiter} (h : WaiterInv stop e log i w)
    (hiff : eProcessed e i ↔ eProcessed e2 i) : WaiterInv stop e2 log i w := by
  obtain ⟨c1, c2, c3, c4, c5, c6, c7, c8, c9, c10⟩ := h
  refine ⟨c1, ?_, ?_, c4, c5, c6, c7, c8, c9, ?_⟩
  · intro hl
    exact ⟨(c2 hl).1, (c2 hl).2.imp id hiff.mp⟩
  · intro hp
    exact c3 (hiff.mpr hp)
  · rw [c10]
    exact expectedLogFor_congr w hiff

/-- Preservation lemma for steps that only replace waiter `j` (no change to
the log, the stop flag, or the exit progress). -/
theorem IkfInv_set_waiter {n : Nat} {s : IkfSys} {j : Nat} {wj w2 : Waiter}
    (hinv : IkfInv n s) (hj : s.waiters[j]? = some wj)
    (hW : WaiterInv s.stopThreads s.exitPc s.log j w2)
    (hstop : ∀ k, s.exitPc = .stopping k → k = j →
      w2.inList = true ∧ w2.shouldStop = true) :
    IkfInv n { s with waiters := s.waiters.set j w2 } := by
  obtain ⟨hlen, hstart, hstopping, hlog, hw⟩ := hinv
  have hjlt : j < s.waiters.length := (List.getElem?_eq_some.mp hj).1
  refine ⟨by simpa using hlen, hstart, ?_, hlog, ?_⟩
  · intro k hk
    by_cases hkj : k = j
    · subst hkj
      exact ⟨w2, by simp [List.getElem?_set, hjlt], hstop k hk rfl⟩
    · rcases hstopping k hk with ⟨w, hwk, h1, h2⟩
      refine ⟨w, ?_, h1, h2⟩
      rw [List.getElem?_set_ne (fun h => hkj h.symm)]
      exact hwk
  · intro i w hi
    by_cases hij : i = j
    · subst hij
      have : w = w2 := by
        rw [List.getElem?_set_eq_of_lt w2 hjlt] at hi
        exact (Option.some.injEq _ _ ▸ hi).symm
      subst this
      exact hW
    · rw [List.getElem?_set_ne (fun h => hij h.symm)] at hi
      exact hw i w hi

theorem inList_true_of_pc_ne_done {stop : Bool} {e : ExitPc} {log : List (Nat × Int)}
    {i : Nat} {w : Waiter} (h : WaiterInv stop e log i w) (hpc : w.pc ≠ .done) :
    w.inList = true := by
  cases h3 : w.inList with
  | false => exact absurd (h.2.1 h3).1 hpc
  | true => rfl

/-- If the exit loop is blocked in `kthread_stop` for position `j`, waiter `j`
is on the list with its stop flag set. -/
theorem stopping_waiter_flags {n : Nat} {s : IkfSys} {j : Nat} {wj : Waiter}
    (hinv : IkfInv n s) (hj : s.waiters[j]? = some wj) :
    ∀ k, s.exitPc = .stopping k → k = j → wj.inList = true ∧ wj.shouldStop = true := by
  intro k hk hkj
  subst hkj
  rcases hinv.2.2.1 k hk with ⟨w', hw', h1, h2⟩
  rw [hj] at hw'
  cases hw'
  exact ⟨h1, h2⟩

/-- The external fence-signal event preserves the invariant. -/
theorem IkfInv_signalFence {n : Nat} {s : IkfSys} {j : Nat} {wj : Waiter}
    (hinv : IkfInv n s) (hj : s.waiters[j]? = some wj) :
    IkfInv n { s with waiters := s.waiters.set j { wj with fenceSignaled := true } } := by
  refine IkfInv_set_waiter hinv hj ?_ ?_
  · obtain ⟨c1, c2, c3, c4, c5, c6, c7, c8, c9, c10⟩ := hinv.2.2.2.2 j wj hj
    refine ⟨c1, c2, c3, c4, c5, c6, c7, c8, c9, ?_⟩
    rw [c10]
    simp [expectedLogFor]
  · intro k hk hkj
    exact (stopping_waiter_flags hinv hj k hk hkj :
      wj.inList = true ∧ wj.shouldStop = true)

/-- A return from `dma_fence_wait_timeout` preserves the invariant: the new
`wait_status` is nonnegative (fence signaled), zero (timed out), or
-ERESTARTSYS when the task had been told to stop. -/
theorem IkfInv_wake {n : Nat} {s : IkfSys} {j : Nat} {wj : Waiter} (st : Int)
    (hinv : IkfInv n s) (hj : s.waiters[j]? = some wj)
    (hpc : wj.pc = .waiting)
    (hst : 0 ≤ st ∨ (st = -ERESTARTSYS ∧ wj.shouldStop = true)) :
    IkfInv n { s with
      waiters := s.waiters.set j { wj with pc := .checkStop, waitStatus := st } } := by
  have hWj := hinv.2.2.2.2 j wj hj
  have hpcne : wj.pc ≠ .done := by rw [hpc]; exact fun h => WaiterPc.noConfusion h
  have hnp : ¬ eProcessed s.exitPc j := not_eProcessed_of_pc_ne_done hWj hpcne
  have hsig : wj.signaled = false := signaled_false_of_early_pc hWj (Or.inl hpc)
  have hin : wj.inList = true := inList_true_of_pc_ne_done hWj hpcne
  obtain ⟨c1, c2, c3, c4, c5, c6, c7, c8, c9, c10⟩ := hWj
  refine IkfInv_set_waiter hinv hj ?_ ?_
  · refine ⟨c1, ?_, fun hp => absurd hp hnp, ?_, ?_, ?_, ?_, ?_, ?_, ?_⟩
    · exact fun h => absurd h (by simp [hin])
    · exact fun h => absurd h (by simp [hsig])
    · intro _
      rcases hst with h | h
      · refine ⟨Or.inl h, fun h2 => ?_⟩
        exfalso
        have h3 : st = -ERESTARTSYS := h2
        rw [h3] at h
        exact absurd h (by decide)
      · exact ⟨Or.inr h.1, fun _ => h.2⟩
    · exact fun h => absurd h (by simp)
    · exact fun h => absurd h (by simp)
    · exact fun h => absurd h.1 (by simp [hsig])
    · exact fun h => absurd h (by simp)
    · rw [c10]
      simp [expectedLogFor, hsig, hnp]
  · intro k hk hkj
    exact (stopping_waiter_flags hinv hj k hk hkj :
      wj.inList = true ∧ wj.shouldStop = true)

/-- The `kthread_should_stop()` check observing the stop flag set: the waiter
yields, jumping to the `out:` label without a callback. -/
theorem IkfInv_check_yield {n : Nat} {s : IkfSys} {j : Nat} {wj : Waiter}
    (hinv : IkfInv n s) (hj : s.waiters[j]? = some wj)
    (hpc : wj.pc = .checkStop) (hss : wj.shouldStop = true) :
    IkfInv n { s with waiters := s.waiters.set j { wj with pc := .lockCheck } } := by
  have hWj := hinv.2.2.2.2 j wj hj
  have hpcne : wj.pc ≠ .done := by rw [hpc]; exact fun h => WaiterPc.noConfusion h
  have hnp : ¬ eProcessed s.exitPc j := not_eProcessed_of_pc_ne_done hWj hpcne
  have hsig : wj.signaled = false := signaled_false_of_early_pc hWj (Or.inr (Or.inl hpc))
  have hin : wj.inList = true := inList_true_of_pc_ne_done hWj hpcne
  obtain ⟨c1, c2, c3, c4, c5, c6, c7, c8, c9, c10⟩ := hWj
  refine IkfInv_set_waiter hinv hj ?_ ?_
  · refine ⟨c1, ?_, fun hp => absurd hp hnp, ?_, ?_, ?_, ?_, ?_, ?_, ?_⟩
    · exact fun h => absurd h (by simp [hin])
    · exact fun h => absurd h (by simp [hsig])
    · exact fun h => absurd h (by simp)
    · exact fun h => absurd h (by simp)
    · exact fun h => absurd h (by simp)
    · exact fun h => absurd h.1 (by simp [hsig])
    · exact fun _ => Or.inr hss
    · rw [c10]
      simp [expectedLogFor, hsig, hnp]
  · intro k hk hkj
    exact (stopping_waiter_flags hinv hj k hk hkj :
      wj.inList = true ∧ wj.shouldStop = true)

/-- The `kthread_should_stop()` check observing the stop flag clear: the
waiter proceeds towards writing `thread->signaled`. -/
theorem IkfInv_check_proceed {n : Nat} {s : IkfSys} {j : Nat} {wj : Waiter}
    (hinv : IkfInv n s) (hj : s.waiters[j]? = some wj)
    (hpc : wj.pc = .checkStop) (hss : wj.shouldStop = false) :
    IkfInv n { s with waiters := s.waiters.set j { wj with pc := .setSig } } := by
  have hWj := hinv.2.2.2.2 j wj hj
  have hpcne : wj.pc ≠ .done := by rw [hpc]; exact fun h => WaiterPc.noConfusion h
  have hnp : ¬ eProcessed s.exitPc j := not_eProcessed_of_pc_ne_done hWj hpcne
  have hsig : wj.signaled = false := signaled_false_of_early_pc hWj (Or.inr (Or.inl hpc))
  have hin : wj.inList = true := inList_true_of_pc_ne_done hWj hpcne
  obtain ⟨c1, c2, c3, c4, c5, c6, c7, c8, c9, c10⟩ := hWj
  refine IkfInv_set_waiter hinv hj ?_ ?_
  · refine ⟨c1, ?_, fun hp => absurd hp hnp, ?_, ?_, ?_, ?_, ?_, ?_, ?_⟩
    · exact fun h => absurd h (by simp [hin])
    · exact fun h => absurd h (by simp [hsig])
    · exact fun h => absurd h (by simp)
    · intro _
      rcases (c5 hpc).1 with h | h
      · exact h
      · exact absurd ((c5 hpc).2 h) (by simp [hss])
    · exact fun h => absurd h (by simp)
    · exact fun h => absurd h.1 (by simp [hsig])
    · exact fun h => absurd h (by simp)
    · rw [c10]
      simp [expectedLogFor, hsig, hnp]
  · intro k hk hkj
    exact (stopping_waiter_flags hinv hj k hk hkj :
      wj.inList = true ∧ wj.shouldStop = true)

/-- Writing `thread->signaled = true` and normalizing `wait_status`. -/
theorem IkfInv_setSignaled {n : Nat} {s : IkfSys} {j : Nat} {wj : Waiter}
    (hinv : IkfInv n s) (hj : s.waiters[j]? = some wj)
    (hpc : wj.pc = .setSig) :
    IkfInv n { s with waiters := s.waiters.set j { wj with
      pc := .cb, signaled := true, waitStatus := normStatus wj.waitStatus } } := by
  have hWj := hinv.2.2.2.2 j wj hj
  have hpcne : wj.pc ≠ .done := by rw [hpc]; exact fun h => WaiterPc.noConfusion h
  have hnp : ¬ eProcessed s.exitPc j := not_eProcessed_of_pc_ne_done hWj hpcne
  have hsig : wj.signaled = false := signaled_false_of_early_pc hWj (Or.inr (Or.inr hpc))
  have hin : wj.inList = true := inList_true_of_pc_ne_done hWj hpcne
  obtain ⟨c1, c2, c3, c4, c5, c6, c7, c8, c9, c10⟩ := hWj
  have hst : 0 ≤ wj.waitStatus := c6 hpc
  have hterm : TerminalStatus (normStatus wj.waitStatus) ∧
      normStatus wj.waitStatus ≠ -ERESTARTSYS := by
    unfold normStatus TerminalStatus
    split_ifs with h1 h2
    · exact ⟨Or.inr (Or.inl rfl), by decide⟩
    · exact ⟨Or.inl le_rfl, by decide⟩
    · refine ⟨Or.inl hst, fun h => ?_⟩
      rw [h] at hst
      exact absurd hst (by decide)
  refine IkfInv_set_waiter hinv hj ?_ ?_
  · refine ⟨c1, ?_, fun hp => absurd hp hnp, ?_, ?_, ?_, ?_, ?_, ?_, ?_⟩
    · exact fun h => absurd h (by simp [hin])
    · exact fun _ => Or.inl rfl
    · exact fun h => absurd h (by simp)
    · exact fun h => absurd h (by simp)
    · exact fun _ => ⟨hterm, rfl⟩
    · intro h
      exfalso
      rcases h.2 with h2 | h2
      · exact absurd h2 (by simp)
      · exact absurd h2 (by simp)
    · exact fun h => absurd h (by simp)
    · rw [c10]
      simp [expectedLogFor, hsig, hnp]
  · intro k hk hkj
    exact (stopping_waiter_flags hinv hj k hk hkj :
      wj.inList = true ∧ wj.shouldStop = true)

/-- Invoking `awaiter->signaled_cb` from the waiter thread. -/
theorem IkfInv_callback {n : Nat} {s : IkfSys} {j : Nat} {wj : Waiter}
    (hinv : IkfInv n s) (hj : s.waiters[j]? = some wj)
    (hpc : wj.pc = .cb) :
    IkfInv n { s with
      waiters := s.waiters.set j { wj with pc := .lockCheck },
      log := s.log ++ [(j, wj.waitStatus)] } := by
  obtain ⟨hlen, hstart, hstopping, hlog, hw⟩ := hinv
  have hWj := hw j wj hj
  have hjlt : j < s.waiters.length := (List.getElem?_eq_some.mp hj).1
  have hpcne : wj.pc ≠ .done := by rw [hpc]; exact fun h => WaiterPc.noConfusion h
  have hnp : ¬ eProcessed s.exitPc j := not_eProcessed_of_pc_ne_done hWj hpcne
  have hin : wj.inList = true := inList_true_of_pc_ne_done hWj hpcne
  obtain ⟨c1, c2, c3, c4, c5, c6, c7, c8, c9, c10⟩ := hWj
  have hsig : wj.signaled = true := (c7 hpc).2
  refine ⟨by simpa using hlen, hstart, ?_, ?_, ?_⟩
  · intro k hk
    by_cases hkj : k = j
    · subst hkj
      refine ⟨{ wj with pc := .lockCheck }, by simp [List.getElem?_set, hjlt], ?_, ?_⟩
      · show wj.inList = true
        exact hin
      · show wj.shouldStop = true
        rcases hstopping k hk with ⟨w', hw', _, h2⟩
        rw [hj] at hw'
        cases hw'
        exact h2
    · rcases hstopping k hk with ⟨w', hw', h1, h2⟩
      refine ⟨w', ?_, h1, h2⟩
      rw [List.getElem?_set_ne (fun h => hkj h.symm)]
      exact hw'
  · intro p hp
    rcases List.mem_append.mp hp with h | h
    · exact hlog p h
    · simp only [List.mem_singleton] at h
      subst h
      simpa [hlen] using hjlt
  · intro i w hi
    by_cases hij : i = j
    · subst hij
      have hw2 : w = { wj with pc := .lockCheck } := by
        rw [List.getElem?_set_eq_of_lt _ hjlt] at hi
        exact (Option.some.injEq _ _ ▸ hi).symm
      subst hw2
      refine ⟨c1, ?_, fun hp => absurd hp hnp, ?_, ?_, ?_, ?_, ?_, ?_, ?_⟩
      · exact fun h => absurd h (by simp [hin])
      · exact fun _ => Or.inr (Or.inl rfl)
      · exact fun h => absurd h (by simp)
      · exact fun h => absurd h (by simp)
      · exact fun h => absurd h (by simp)
      · exact fun _ => (c7 hpc).1
      · exact fun _ => Or.inl hsig
      · rw [logFor_append, if_pos rfl, c10]
        simp [expectedLogFor, hsig, hnp, hpc]
    · rw [List.getElem?_set_ne (fun h => hij h.symm)] at hi
      exact WaiterInv_log_append_ne (hw i w hi) (fun h => hij h.symm)

/-- Taking `threads_lock` at `out:` with `stop_threads` set: the record stays
on the list for `gcip_ikf_awaiter_exit` to release. -/
theorem IkfInv_lock_stay {n : Nat} {s : IkfSys} {j : Nat} {wj : Waiter}
    (hinv : IkfInv n s) (hj : s.waiters[j]? = some wj)
    (hpc : wj.pc = .lockCheck) (_hstopT : s.stopThreads = true) :
    IkfInv n { s with waiters := s.waiters.set j { wj with pc := .done } } := by
  have hWj := hinv.2.2.2.2 j wj hj
  have hpcne : wj.pc ≠ .done := by rw [hpc]; exact fun h => WaiterPc.noConfusion h
  have hnp : ¬ eProcessed s.exitPc j := not_eProcessed_of_pc_ne_done hWj hpcne
  have hin : wj.inList = true := inList_true_of_pc_ne_done hWj hpcne
  obtain ⟨c1, c2, c3, c4, c5, c6, c7, c8, c9, c10⟩ := hWj
  refine IkfInv_set_waiter hinv hj ?_ ?_
  · refine ⟨c1, ?_, fun hp => absurd hp hnp, ?_, ?_, ?_, ?_, ?_, ?_, ?_⟩
    · exact fun h => absurd h (by simp [hin])
    · exact fun _ => Or.inr (Or.inr rfl)
    · exact fun h => absurd h (by simp)
    · exact fun h => absurd h (by simp)
    · exact fun h => absurd h (by simp)
    · exact fun h => c8 ⟨h.1, Or.inl hpc⟩
    · exact fun h => absurd h (by simp)
    · rw [c10]
      cases hsg : wj.signaled with
      | true => simp [expectedLogFor, hsg, hpc]
      | false => simp [expectedLogFor, hsg, hnp]
  · intro k hk hkj
    exact (stopping_waiter_flags hinv hj k hk hkj :
      wj.inList = true ∧ wj.shouldStop = true)

/-- Taking `threads_lock` at `out:` with `stop_threads` clear: the thread
unlinks itself and frees its own record. -/
theorem IkfInv_lock_free {n : Nat} {s : IkfSys} {j : Nat} {wj : Waiter}
    (hinv : IkfInv n s) (hj : s.waiters[j]? = some wj)
    (hpc : wj.pc = .lockCheck) (hstopF : s.stopThreads = false) :
    IkfInv n { s with
      waiters := s.waiters.set j { wj with pc := .done, inList := false } } := by
  have hWj := hinv.2.2.2.2 j wj hj
  have hpcne : wj.pc ≠ .done := by rw [hpc]; exact fun h => WaiterPc.noConfusion h
  have hnp : ¬ eProcessed s.exitPc j := not_eProcessed_of_pc_ne_done hWj hpcne
  obtain ⟨c1, c2, c3, c4, c5, c6, c7, c8, c9, c10⟩ := hWj
  have hsg : wj.signaled = true := by
    rcases c9 hpc with h | h
    · exact h
    · exact absurd (c1 h) (by simp [hstopF])
  refine IkfInv_set_waiter hinv hj ?_ ?_
  · refine ⟨c1, ?_, ?_, ?_, ?_, ?_, ?_, ?_, ?_, ?_⟩
    · exact fun _ => ⟨rfl, Or.inl hsg⟩
    · exact fun _ => rfl
    · exact fun _ => Or.inr (Or.inr rfl)
    · exact fun h => absurd h (by simp)
    · exact fun h => absurd h (by simp)
    · exact fun h => absurd h (by simp)
    · exact fun h => c8 ⟨h.1, Or.inl hpc⟩
    · exact fun h => absurd h (by simp)
    · rw [c10]
      simp [expectedLogFor, hsg, hpc]
  · intro k hk _
    exfalso
    have h2 : s.stopThreads = true :=
      hinv.2.1 (by rw [hk]; exact fun h => ExitPc.noConfusion h)
    rw [hstopF] at h2
    exact Bool.noConfusion h2

/-- `gcip_ikf_awaiter_exit` sets `stop_threads` under `threads_lock` and
begins iterating the list. -/
theorem IkfInv_exitStart {n : Nat} {s : IkfSys}
    (hinv : IkfInv n s) (hg : s.exitPc = .notCalled) :
    IkfInv n { s with stopThreads := true, exitPc := .loop 0 } := by
  obtain ⟨hlen, hstart, hstopping, hlog, hw⟩ := hinv
  refine ⟨hlen, fun _ => rfl, ?_, hlog, ?_⟩
  · intro k hk
    exact ExitPc.noConfusion hk
  · intro i w hi
    have hWi2 : WaiterInv s.stopThreads (ExitPc.loop 0) s.log i w :=
      WaiterInv_exitPc_congr (hw i w hi) (by rw [hg]; simp [eProcessed])
    obtain ⟨c1, c2, c3, c4, c5, c6, c7, c8, c9, c10⟩ := hWi2
    exact ⟨fun _ => rfl, c2, c3, c4, c5, c6, c7, c8, c9, c10⟩

/-- The exit loop runs off the end of the list and returns. -/
theorem IkfInv_exit_finish {n : Nat} {s : IkfSys} {k : Nat}
    (hinv : IkfInv n s) (hpc : s.exitPc = .loop k)
    (hk : s.waiters[k]? = none) :
    IkfInv n { s with exitPc := .finished } := by
  obtain ⟨hlen, hstart, hstopping, hlog, hw⟩ := hinv
  have hstopTrue : s.stopThreads = true :=
    hstart (by rw [hpc]; exact fun h => ExitPc.noConfusion h)
  have hklen : s.waiters.length ≤ k := List.getElem?_eq_none_iff.mp hk
  refine ⟨hlen, fun _ => hstopTrue, ?_, hlog, ?_⟩
  · intro k2 hk2
    exact ExitPc.noConfusion hk2
  · intro i w hi
    have hilt : i < s.waiters.length := (List.getElem?_eq_some.mp hi).1
    refine WaiterInv_exitPc_congr (hw i w hi) ?_
    rw [hpc]
    simp only [eProcessed]
    constructor
    · intro _
      trivial
    · intro _
      omega

/-- The exit loop reaches a list entry: it sets the task's kthread-stop flag
and blocks in the synchronous `kthread_stop`. -/
theorem IkfInv_exit_kstop {n : Nat} {s : IkfSys} {k : Nat} {wk : Waiter}
    (hinv : IkfInv n s) (hpc : s.exitPc = .loop k)
    (hk : s.waiters[k]? = some wk) (hkin : wk.inList = true) :
    IkfInv n { s with
      waiters := s.waiters.set k { wk with shouldStop := true },
      exitPc := .stopping k } := by
  obtain ⟨hlen, hstart, hstopping, hlog, hw⟩ := hinv
  have hstopTrue : s.stopThreads = true :=
    hstart (by rw [hpc]; exact fun h => ExitPc.noConfusion h)
  have hklt : k < s.waiters.length := (List.getElem?_eq_some.mp hk).1
  refine ⟨by simpa using hlen, fun _ => hstopTrue, ?_, hlog, ?_⟩
  · intro k2 hk2
    injection hk2 with hk2e
    subst hk2e
    exact ⟨{ wk with shouldStop := true },
      by simp [List.getElem?_set, hklt], hkin, rfl⟩
  · intro i w hi
    by_cases hik : i = k
    · subst hik
      have hw2 : w = { wk with shouldStop := true } := by
        rw [List.getElem?_set_eq_of_lt _ hklt] at hi
        exact (Option.some.injEq _ _ ▸ hi).symm
      subst hw2
      have hWk2 : WaiterInv s.stopThreads (ExitPc.stopping i) s.log i wk :=
        WaiterInv_exitPc_congr (hw i wk hk) (by rw [hpc]; exact Iff.rfl)
      obtain ⟨c1, c2, c3, c4, c5, c6, c7, c8, c9, c10⟩ := hWk2
      refine ⟨fun _ => hstopTrue, ?_, ?_, c4, ?_, c6, c7, c8, ?_, ?_⟩
      · intro hl
        exact ⟨(c2 hl).1, (c2 hl).2⟩
      · intro hp
        exact c3 hp
      · intro hpcc
        exact ⟨(c5 hpcc).1, fun _ => rfl⟩
      · intro hpcc
        exact (c9 hpcc).imp id fun _ => rfl
      · rw [c10]
        simp [expectedLogFor]
    · rw [List.getElem?_set_ne (fun h => hik h.symm)] at hi
      exact WaiterInv_exitPc_congr (hw i w hi) (by rw [hpc]; exact Iff.rfl)

/-- The exit loop skips a list position whose thread already unlinked
itself (such a thread had delivered its own callback). -/
theorem IkfInv_exit_skip {n : Nat} {s : IkfSys} {k : Nat} {wk : Waiter}
    (hinv : IkfInv n s) (hpc : s.exitPc = .loop k)
    (hk : s.waiters[k]? = some wk) (hkin : wk.inList = false) :
    IkfInv n { s with exitPc := .loop (k + 1) } := by
  obtain ⟨hlen, hstart, hstopping, hlog, hw⟩ := hinv
  have hstopTrue : s.stopThreads = true :=
    hstart (by rw [hpc]; exact fun h => ExitPc.noConfusion h)
  have hWk := hw k wk hk
  have hksig : wk.signaled = true := by
    rcases (hWk.2.1 hkin).2 with h | h
    · exact h
    · exfalso
      rw [hpc] at h
      simp only [eProcessed] at h
      omega
  have hkdone : wk.pc = .done := (hWk.2.1 hkin).1
  refine ⟨hlen, fun _ => hstopTrue, ?_, hlog, ?_⟩
  · intro k2 hk2
    exact ExitPc.noConfusion hk2
  · intro i w hi
    by_cases hik : i = k
    · subst hik
      rw [hk] at hi
      cases hi
      obtain ⟨c1, c2, c3, c4, c5, c6, c7, c8, c9, c10⟩ := hWk
      refine ⟨c1, ?_, ?_, c4, c5, c6, c7, c8, c9, ?_⟩
      · exact fun _ => ⟨hkdone, Or.inl hksig⟩
      · exact fun _ => hkin
      · rw [c10]
        simp [expectedLogFor, hksig, hkdone]
    · refine WaiterInv_exitPc_congr (hw i w hi) ?_
      rw [hpc]
      simp only [eProcessed]
      omega

/-- `kthread_stop` returns (the thread function has exited): exit inspects
`cur->signaled` — invoking the callback with -ERESTARTSYS if the thread never
observed a signal — and unlinks and frees the record. -/
theorem IkfInv_exit_reap {n : Nat} {s : IkfSys} {k : Nat} {wk : Waiter}
    (hinv : IkfInv n s) (hpc : s.exitPc = .stopping k)
    (hk : s.waiters[k]? = some wk) (hg : wk.pc = .done) :
    IkfInv n { s with
      log := if wk.signaled then s.log else s.log ++ [(k, -ERESTARTSYS)],
      waiters := s.waiters.set k { wk with inList := false },
      exitPc := .loop (k + 1) } := by
  obtain ⟨hlen, hstart, hstopping, hlog, hw⟩ := hinv
  have hstopTrue : s.stopThreads = true :=
    hstart (by rw [hpc]; exact fun h => ExitPc.noConfusion h)
  have hklt : k < s.waiters.length := (List.getElem?_eq_some.mp hk).1
  have hWk := hw k wk hk
  obtain ⟨c1, c2, c3, c4, c5, c6, c7, c8, c9, c10⟩ := hWk
  have hnp : ¬ eProcessed s.exitPc k := by
    rw [hpc]
    simp only [eProcessed]
    omega
  refine ⟨by simpa using hlen, fun _ => hstopTrue, ?_, ?_, ?_⟩
  · intro k2 hk2
    exact ExitPc.noConfusion hk2
  · intro p hp
    cases hsg : wk.signaled with
    | true =>
      rw [hsg] at hp
      simp only [eq_self_iff_true, if_true] at hp
      exact hlog p hp
    | false =>
      rw [hsg] at hp
      simp only [Bool.false_eq_true, if_false] at hp
      rcases List.mem_append.mp hp with h | h
      · exact hlog p h
      · simp only [List.mem_singleton] at h
        subst h
        simpa [hlen] using hklt
  · intro i w hi
    by_cases hik : i = k
    · subst hik
      have hw2 : w = { wk with inList := false } := by
        rw [List.getElem?_set_eq_of_lt _ hklt] at hi
        exact (Option.some.injEq _ _ ▸ hi).symm
      subst hw2
      refine ⟨c1, ?_, fun _ => rfl, ?_, ?_, ?_, ?_, ?_, ?_, ?_⟩
      · intro _
        refine ⟨hg, Or.inr ?_⟩
        simp [eProcessed]
      · intro h
        rcases c4 h with h2 | h2 | h2
        · exact Or.inl h2
        · exact Or.inr (Or.inl h2)
        · exact Or.inr (Or.inr h2)
      · exact fun hpcc => c5 hpcc
      · exact fun hpcc => c6 hpcc
      · exact fun hpcc => c7 hpcc
      · exact fun h => c8 ⟨h.1, h.2⟩
      · exact fun hpcc => c9 hpcc
      · cases hsg : wk.signaled with
        | true =>
          simp only [eq_self_iff_true, if_true]
          rw [c10]
          simp [expectedLogFor, hsg, hg]
        | false =>
          simp only [Bool.false_eq_true, if_false]
          rw [logFor_append, if_pos rfl, c10]
          simp [expectedLogFor, hsg, hg, eProcessed]
          exact hnp
    · rw [List.getElem?_set_ne (fun h => hik h.symm)] at hi
      have hWi2 : WaiterInv s.stopThreads (ExitPc.loop (k + 1)) s.log i w := by
        refine WaiterInv_exitPc_congr (hw i w hi) ?_
        rw [hpc]
        simp only [eProcessed]
        omega
      cases hsg : wk.signaled with
      | true =>
        simp only [eq_self_iff_true, if_true]
        exact hWi2
      | false =>
        simp only [Bool.false_eq_true, if_false]
        exact WaiterInv_log_append_ne hWi2 (fun h => hik h.symm)

/-- Every enabled step preserves the invariant. -/
theorem ikfStep_preserves {n : Nat} {l : IkfLabel} {s s2 : IkfSys}
    (hinv : IkfInv n s) (hstep : ikfStep l s = some s2) : IkfInv n s2 := by
  cases l with
  | signalFence j =>
    simp only [ikfStep] at hstep
    cases hj : s.waiters[j]? with
    | none => rw [hj] at hstep; exact Option.noConfusion hstep
    | some wj =>
      rw [hj] at hstep
      dsimp only at hstep
      injection hstep with he
      subst he
      exact IkfInv_signalFence hinv hj
  | wakeSignaled j r =>
    simp only [ikfStep] at hstep
    cases hj : s.waiters[j]? with
    | none => rw [hj] at hstep; exact Option.noConfusion hstep
    | some wj =>
      rw [hj] at hstep
      dsimp only at hstep
      split at hstep
      · rename_i hg
        injection hstep with he
        subst he
        exact IkfInv_wake _ hinv hj hg.1 (Or.inl (by omega))
      · exact Option.noConfusion hstep
  | wakeTimeout j =>
    simp only [ikfStep] at hstep
    cases hj : s.waiters[j]? with
    | none => rw [hj] at hstep; exact Option.noConfusion hstep
    | some wj =>
      rw [hj] at hstep
      dsimp only at hstep
      split at hstep
      · rename_i hg
        injection hstep with he
        subst he
        exact IkfInv_wake _ hinv hj hg.1 (Or.inl le_rfl)
      · exact Option.noConfusion hstep
  | wakeStopped j =>
    simp only [ikfStep] at hstep
    cases hj : s.waiters[j]? with
    | none => rw [hj] at hstep; exact Option.noConfusion hstep
    | some wj =>
      rw [hj] at hstep
      dsimp only at hstep
      split at hstep
      · rename_i hg
        injection hstep with he
        subst he
        exact IkfInv_wake _ hinv hj hg.1 (Or.inr ⟨rfl, hg.2⟩)
      · exact Option.noConfusion hstep
  | waiterCheckStop j =>
    simp only [ikfStep] at hstep
    cases hj : s.waiters[j]? with
    | none => rw [hj] at hstep; exact Option.noConfusion hstep
    | some wj =>
      rw [hj] at hstep
      dsimp only at hstep
      split at hstep
      · rename_i hg
        split at hstep
        · rename_i hss
          injection hstep with he
          subst he
          exact IkfInv_check_yield hinv hj hg hss
        · rename_i hss
          injection hstep with he
          subst he
          refine IkfInv_check_proceed hinv hj hg ?_
          cases h2 : wj.shouldStop with
          | true => exact absurd h2 hss
          | false => rfl
      · exact Option.noConfusion hstep
  | waiterSetSignaled j =>
    simp only [ikfStep] at hstep
    cases hj : s.waiters[j]? with
    | none => rw [hj] at hstep; exact Option.noConfusion hstep
    | some wj =>
      rw [hj] at hstep
      dsimp only at hstep
      split at hstep
      · rename_i hg
        injection hstep with he
        subst he
        exact IkfInv_setSignaled hinv hj hg
      · exact Option.noConfusion hstep
  | waiterCallback j =>
    simp only [ikfStep] at hstep
    cases hj : s.waiters[j]? with
    | none => rw [hj] at hstep; exact Option.noConfusion hstep
    | some wj =>
      rw [hj] at hstep
      dsimp only at hstep
      split at hstep
      · rename_i hg
        injection hstep with he
        subst he
        exact IkfInv_callback hinv hj hg
      · exact Option.noConfusion hstep
  | waiterLock j =>
    simp only [ikfStep] at hstep
    cases hj : s.waiters[j]? with
    | none => rw [hj] at hstep; exact Option.noConfusion hstep
    | some wj =>
      rw [hj] at hstep
      dsimp only at hstep
      split at hstep
      · rename_i hg
        split at hstep
        · rename_i hstopT
          injection hstep with he
          subst he
          exact IkfInv_lock_stay hinv hj hg hstopT
        · rename_i hstopT
          injection hstep with he
          subst he
          refine IkfInv_lock_free hinv hj hg ?_
          cases h2 : s.stopThreads with
          | true => exact absurd h2 hstopT
          | false => rfl
      · exact Option.noConfusion hstep
  | exitStart =>
    simp only [ikfStep] at hstep
    split at hstep
    · rename_i hg
      injection hstep with he
      subst he
      exact IkfInv_exitStart hinv hg
    · exact Option.noConfusion hstep
  | exitStep =>
    simp only [ikfStep] at hstep
    cases hpc : s.exitPc with
    | notCalled => rw [hpc] at hstep; exact Option.noConfusion hstep
    | finished => rw [hpc] at hstep; exact Option.noConfusion hstep
    | loop k =>
      rw [hpc] at hstep
      dsimp only at hstep
      cases hk : s.waiters[k]? with
      | none =>
        rw [hk] at hstep
        dsimp only at hstep
        injection hstep with he
        subst he
        exact IkfInv_exit_finish hinv hpc hk
      | some wk =>
        rw [hk] at hstep
        dsimp only at hstep
        split at hstep
        · rename_i hkin
          injection hstep with he
          subst he
          exact IkfInv_exit_kstop hinv hpc hk hkin
        · rename_i hkin
          injection hstep with he
          subst he
          refine IkfInv_exit_skip hinv hpc hk ?_
          cases h2 : wk.inList with
          | true => exact absurd h2 hkin
          | false => rfl
    | stopping k =>
      rw [hpc] at hstep
      dsimp only at hstep
      cases hk : s.waiters[k]? with
      | none => rw [hk] at hstep; exact Option.noConfusion hstep
      | some wk =>
        rw [hk] at hstep
        dsimp only at hstep
        split at hstep
        · rename_i hg
          injection hstep with he
          subst he
          exact IkfInv_exit_reap hinv hpc hk hg
        · exact Option.noConfusion hstep

/-- The invariant holds after any successful run. -/
theorem ikfRun_preserves {n : Nat} :
    ∀ (ls : List IkfLabel) (s s2 : IkfSys),
      IkfInv n s → ikfRun ls s = some s2 → IkfInv n s2 := by
  intro ls
  induction ls with
  | nil =>
    intro s s2 hinv hrun
    simp only [ikfRun] at hrun
    injection hrun with he
    subst he
    exact hinv
  | cons l rest ih =>
    intro s s2 hinv hrun
    simp only [ikfRun] at hrun
    cases hstep : ikfStep l s with
    | none => rw [hstep] at hrun; exact Option.noConfusion hrun
    | some smid =>
      rw [hstep] at hrun
      exact ih smid s2 (ikfStep_preserves hinv hstep) hrun

/-- What the invariant says about each waiter once
`gcip_ikf_awaiter_exit` has returned. -/
theorem ikfFinal_waiter {n : Nat} {s : IkfSys} (hinv : IkfInv n s)
    (hfin : s.exitPc = .finished) :
    ∀ i w, s.waiters[i]? = some w →
      w.inList = false ∧ w.pc = .done ∧
      (w.signaled = true →
        logFor s.log i = [(i, w.waitStatus)] ∧
        TerminalStatus w.waitStatus ∧ w.waitStatus ≠ -ERESTARTSYS) ∧
      (w.signaled = false → logFor s.log i = [(i, -ERESTARTSYS)]) := by
  intro i w hi
  obtain ⟨c1, c2, c3, c4, c5, c6, c7, c8, c9, c10⟩ := hinv.2.2.2.2 i w hi
  have hp : eProcessed s.exitPc i := by rw [hfin]; trivial
  have hinl : w.inList = false := c3 hp
  have hdone : w.pc = .done := (c2 hinl).1
  refine ⟨hinl, hdone, ?_, ?_⟩
  · intro hsg
    refine ⟨?_, c8 ⟨hsg, Or.inr hdone⟩⟩
    rw [c10]
    simp [expectedLogFor, hsg, hdone]
  · intro hsg
    rw [c10]
    simp [expectedLogFor, hsg, hdone, hp]

/-- A log whose entries all index below `n` splits into the per-index
sublists. -/
theorem length_eq_sum_logFor (n : Nat) :
    ∀ (log : List (Nat × Int)), (∀ p ∈ log, p.1 < n) →
      log.length = ∑ i in Finset.range n, (logFor log i).length := by
  intro log
  induction log with
  | nil =>
    intro _
    simp [logFor]
  | cons p rest ih =>
    intro h
    have hp : p.1 < n := h p (List.mem_cons_self p rest)
    have hrest : ∀ q ∈ rest, q.1 < n := fun q hq => h q (List.mem_cons_of_mem p hq)
    have hsplit : ∀ i, (logFor (p :: rest) i).length =
        (if p.1 = i then 1 else 0) + (logFor rest i).length := by
      intro i
      simp only [logFor, List.filter_cons]
      by_cases h2 : p.1 = i
      · simp [h2]
        omega
      · simp [h2]
    calc (p :: rest).length
        = 1 + rest.length := by simp [Nat.add_comm]
      _ = 1 + ∑ i in Finset.range n, (logFor rest i).length := by rw [ih hrest]
      _ = (∑ i in Finset.range n, if p.1 = i then 1 else 0) +
            ∑ i in Finset.range n, (logFor rest i).length := by
            rw [Finset.sum_ite_eq]
            simp [Finset.mem_range.mpr hp]
      _ = ∑ i in Finset.range n, (logFor (p :: rest) i).length := by
            rw [← Finset.sum_add_distrib]
            exact Finset.sum_congr rfl fun i _ => (hsplit i).symm

/-- A waiter that reached the `out:` label without having set its completion
flag stays that way under every step. -/
theorem ikfStep_preserves_past {l : IkfLabel} {s s2 : IkfSys} {i : Nat}
    (hstep : ikfStep l s = some s2)
    (hw : ∃ w, s.waiters[i]? = some w ∧ (w.pc = .lockCheck ∨ w.pc = .done) ∧
      w.signaled = false) :
    ∃ w, s2.waiters[i]? = some w ∧ (w.pc = .lockCheck ∨ w.pc = .done) ∧
      w.signaled = false := by
  obtain ⟨w, hi, hpc, hsg⟩ := hw
  have hilt : i < s.waiters.length := (List.getElem?_eq_some.mp hi).1
  cases l with
  | signalFence j =>
    simp only [ikfStep] at hstep
    cases hj : s.waiters[j]? with
    | none => rw [hj] at hstep; exact Option.noConfusion hstep
    | some wj =>
      rw [hj] at hstep
      dsimp only at hstep
      injection hstep with he
      subst he
      by_cases hij : i = j
      · subst hij
        rw [hj] at hi
        cases hi
        exact ⟨{ w with fenceSignaled := true }, by simp [List.getElem?_set, hilt], hpc, hsg⟩
      · exact ⟨w, by rw [List.getElem?_set_ne (fun h => hij h.symm)]; exact hi, hpc, hsg⟩
  | wakeSignaled j r =>
    simp only [ikfStep] at hstep
    cases hj : s.waiters[j]? with
    | none => rw [hj] at hstep; exact Option.noConfusion hstep
    | some wj =>
      rw [hj] at hstep
      dsimp only at hstep
      split at hstep
      · rename_i hg
        injection hstep with he
        subst he
        by_cases hij : i = j
        · subst hij
          rw [hj] at hi
          cases hi
          rcases hpc with h | h <;> rw [hg.1] at h <;> exact WaiterPc.noConfusion h
        · exact ⟨w, by rw [List.getElem?_set_ne (fun h => hij h.symm)]; exact hi, hpc, hsg⟩
      · exact Option.noConfusion hstep
  | wakeTimeout j =>
    simp only [ikfStep] at hstep
    cases hj : s.waiters[j]? with
    | none => rw [hj] at hstep; exact Option.noConfusion hstep
    | some wj =>
      rw [hj] at hstep
      dsimp only at hstep
      split at hstep
      · rename_i hg
        injection hstep with he
        subst he
        by_cases hij : i = j
        · subst hij
          rw [hj] at hi
          cases hi
          rcases hpc with h | h <;> rw [hg.1] at h <;> exact WaiterPc.noConfusion h
        · exact ⟨w, by rw [List.getElem?_set_ne (fun h => hij h.symm)]; exact hi, hpc, hsg⟩
      · exact Option.noConfusion hstep
  | wakeStopped j =>
    simp only [ikfStep] at hstep
    cases hj : s.waiters[j]? with
    | none => rw [hj] at hstep; exact Option.noConfusion hstep
    | some wj =>
      rw [hj] at hstep
      dsimp only at hstep
      split at hstep
      · rename_i hg
        injection hstep with he
        subst he
        by_cases hij : i = j
        · subst hij
          rw [hj] at hi
          cases hi
          rcases hpc with h | h <;> rw [hg.1] at h <;> exact WaiterPc.noConfusion h
        · exact ⟨w, by rw [List.getElem?_set_ne (fun h => hij h.symm)]; exact hi, hpc, hsg⟩
      · exact Option.noConfusion hstep
  | waiterCheckStop j =>
    simp only [ikfStep] at hstep
    cases hj : s.waiters[j]? with
    | none => rw [hj] at hstep; exact Option.noConfusion hstep
    | some wj =>
      rw [hj] at hstep
      dsimp only at hstep
      split at hstep
      · rename_i hg
        injection hstep with he
        subst he
        by_cases hij : i = j
        · subst hij
          rw [hj] at hi
          cases hi
          rcases hpc with h | h <;> rw [hg] at h <;> exact WaiterPc.noConfusion h
        · exact ⟨w, by rw [List.getElem?_set_ne (fun h => hij h.symm)]; exact hi, hpc, hsg⟩
      · exact Option.noConfusion hstep
  | waiterSetSignaled j =>
    simp only [ikfStep] at hstep
    cases hj : s.waiters[j]? with
    | none => rw [hj] at hstep; exact Option.noConfusion hstep
    | some wj =>
      rw [hj] at hstep
      dsimp only at hstep
      split at hstep
      · rename_i hg
        injection hstep with he
        subst he
        by_cases hij : i = j
        · subst hij
          rw [hj] at hi
          cases hi
          rcases hpc with h | h <;> rw [hg] at h <;> exact WaiterPc.noConfusion h
        · exact ⟨w, by rw [List.getElem?_set_ne (fun h => hij h.symm)]; exact hi, hpc, hsg⟩
      · exact Option.noConfusion hstep
  | waiterCallback j =>
    simp only [ikfStep] at hstep
    cases hj : s.waiters[j]? with
    | none => rw [hj] at hstep; exact Option.noConfusion hstep
    | some wj =>
      rw [hj] at hstep
      dsimp only at hstep
      split at hstep
      · rename_i hg
        injection hstep with he
        subst he
        by_cases hij : i = j
        · subst hij
          rw [hj] at hi
          cases hi
          rcases hpc with h | h <;> rw [hg] at h <;> exact WaiterPc.noConfusion h
        · exact ⟨w, by rw [List.getElem?_set_ne (fun h => hij h.symm)]; exact hi, hpc, hsg⟩
      · exact Option.noConfusion hstep
  | waiterLock j =>
    simp only [ikfStep] at hstep
    cases hj : s.waiters[j]? with
    | none => rw [hj] at hstep; exact Option.noConfusion hstep
    | some wj =>
      rw [hj] at hstep
      dsimp only at hstep
      split at hstep
      · rename_i hg
        split at hstep <;>
          (injection hstep with he
           subst he
           by_cases hij : i = j)
        · subst hij
          rw [hj] at hi
          cases hi
          exact ⟨{ w with pc := .done }, by simp [List.getElem?_set, hilt], Or.inr rfl, hsg⟩
        · exact ⟨w, by rw [List.getElem?_set_ne (fun h => hij h.symm)]; exact hi, hpc, hsg⟩
        · subst hij
          rw [hj] at hi
          cases hi
          exact ⟨{ w with pc := .done, inList := false }, by simp [List.getElem?_set, hilt], Or.inr rfl, hsg⟩
        · exact ⟨w, by rw [List.getElem?_set_ne (fun h => hij h.symm)]; exact hi, hpc, hsg⟩
      · exact Option.noConfusion hstep
  | exitStart =>
    simp only [ikfStep] at hstep
    split at hstep
    · injection hstep with he
      subst he
      exact ⟨w, hi, hpc, hsg⟩
    · exact Option.noConfusion hstep
  | exitStep =>
    simp only [ikfStep] at hstep
    cases hpc2 : s.exitPc with
    | notCalled => rw [hpc2] at hstep; exact Option.noConfusion hstep
    | finished => rw [hpc2] at hstep; exact Option.noConfusion hstep
    | loop k =>
      rw [hpc2] at hstep
      dsimp only at hstep
      cases hk : s.waiters[k]? with
      | none =>
        rw [hk] at hstep
        dsimp only at hstep
        injection hstep with he
        subst he
        exact ⟨w, hi, hpc, hsg⟩
      | some wk =>
        rw [hk] at hstep
        dsimp only at hstep
        split at hstep
        · injection hstep with he
          subst he
          by_cases hik : i = k
          · subst hik
            rw [hk] at hi
            cases hi
            exact ⟨{ w with shouldStop := true }, by simp [List.getElem?_set, hilt], hpc, hsg⟩
          · exact ⟨w, by rw [List.getElem?_set_ne (fun h => hik h.symm)]; exact hi, hpc, hsg⟩
        · injection hstep with he
          subst he
          exact ⟨w, hi, hpc, hsg⟩
    | stopping k =>
      rw [hpc2] at hstep
      dsimp only at hstep
      cases hk : s.waiters[k]? with
      | none => rw [hk] at hstep; exact Option.noConfusion hstep
      | some wk =>
        rw [hk] at hstep
        dsimp only at hstep
        split at hstep
        · injection hstep with he
          subst he
          by_cases hik : i = k
          · subst hik
            rw [hk] at hi
            cases hi
            exact ⟨{ w with inList := false }, by simp [List.getElem?_set, hilt], hpc, hsg⟩
          · exact ⟨w, by rw [List.getElem?_set_ne (fun h => hik h.symm)]; exact hi, hpc, hsg⟩
        · exact Option.noConfusion hstep

/-- A waiter that is about to set, or has set, its completion flag keeps that
property under every step. -/
theorem ikfStep_preserves_committed {l : IkfLabel} {s s2 : IkfSys} {i : Nat}
    (hstep : ikfStep l s = some s2)
    (hw : ∃ w, s.waiters[i]? = some w ∧ (w.pc = .setSig ∨ w.signaled = true)) :
    ∃ w, s2.waiters[i]? = some w ∧ (w.pc = .setSig ∨ w.signaled = true) := by
  obtain ⟨w, hi, hq⟩ := hw
  have hilt : i < s.waiters.length := (List.getElem?_eq_some.mp hi).1
  cases l with
  | signalFence j =>
    simp only [ikfStep] at hstep
    cases hj : s.waiters[j]? with
    | none => rw [hj] at hstep; exact Option.noConfusion hstep
    | some wj =>
      rw [hj] at hstep
      dsimp only at hstep
      injection hstep with he
      subst he
      by_cases hij : i = j
      · subst hij
        rw [hj] at hi
        cases hi
        exact ⟨{ w with fenceSignaled := true }, by simp [List.getElem?_set, hilt], hq⟩
      · exact ⟨w, by rw [List.getElem?_set_ne (fun h => hij h.symm)]; exact hi, hq⟩
  | wakeSignaled j r =>
    simp only [ikfStep] at hstep
    cases hj : s.waiters[j]? with
    | none => rw [hj] at hstep; exact Option.noConfusion hstep
    | some wj =>
      rw [hj] at hstep
      dsimp only at hstep
      split at hstep
      · rename_i hg
        injection hstep with he
        subst he
        by_cases hij : i = j
        · subst hij
          rw [hj] at hi
          cases hi
          rcases hq with h | h
          · rw [hg.1] at h; exact WaiterPc.noConfusion h
          · exact ⟨{ w with pc := .checkStop, waitStatus := (r : Int) + 1 }, by simp [List.getElem?_set, hilt], Or.inr h⟩
        · exact ⟨w, by rw [List.getElem?_set_ne (fun h => hij h.symm)]; exact hi, hq⟩
      · exact Option.noConfusion hstep
  | wakeTimeout j =>
    simp only [ikfStep] at hstep
    cases hj : s.waiters[j]? with
    | none => rw [hj] at hstep; exact Option.noConfusion hstep
    | some wj =>
      rw [hj] at hstep
      dsimp only at hstep
      split at hstep
      · rename_i hg
        injection hstep with he
        subst he
        by_cases hij : i = j
        · subst hij
          rw [hj] at hi
          cases hi
          rcases hq with h | h
          · rw [hg.1] at h; exact WaiterPc.noConfusion h
          · exact ⟨{ w with pc := .checkStop, waitStatus := 0 }, by simp [List.getElem?_set, hilt], Or.inr h⟩
        · exact ⟨w, by rw [List.getElem?_set_ne (fun h => hij h.symm)]; exact hi, hq⟩
      · exact Option.noConfusion hstep
  | wakeStopped j =>
    simp only [ikfStep] at hstep
    cases hj : s.waiters[j]? with
    | none => rw [hj] at hstep; exact Option.noConfusion hstep
    | some wj =>
      rw [hj] at hstep
      dsimp only at hstep
      split at hstep
      · rename_i hg
        injection hstep with he
        subst he
        by_cases hij : i = j
        · subst hij
          rw [hj] at hi
          cases hi
          rcases hq with h | h
          · rw [hg.1] at h; exact WaiterPc.noConfusion h
          · exact ⟨{ w with pc := .checkStop, waitStatus := -ERESTARTSYS }, by simp [List.getElem?_set, hilt], Or.inr h⟩
        · exact ⟨w, by rw [List.getElem?_set_ne (fun h => hij h.symm)]; exact hi, hq⟩
      · exact Option.noConfusion hstep
  | waiterCheckStop j =>
    simp only [ikfStep] at hstep
    cases hj : s.waiters[j]? with
    | none => rw [hj] at hstep; exact Option.noConfusion hstep
    | some wj =>
      rw [hj] at hstep
      dsimp only at hstep
      split at hstep
      · rename_i hg
        injection hstep with he
        subst he
        by_cases hij : i = j
        · subst hij
          rw [hj] at hi
          cases hi
          rcases hq with h | h
          · rw [hg] at h; exact WaiterPc.noConfusion h
          · exact ⟨{ w with pc := if w.shouldStop then .lockCheck else .setSig }, by simp [List.getElem?_set, hilt], Or.inr h⟩
        · exact ⟨w, by rw [List.getElem?_set_ne (fun h => hij h.symm)]; exact hi, hq⟩
      · exact Option.noConfusion hstep
  | waiterSetSignaled j =>
    simp only [ikfStep] at hstep
    cases hj : s.waiters[j]? with
    | none => rw [hj] at hstep; exact Option.noConfusion hstep
    | some wj =>
      rw [hj] at hstep
      dsimp only at hstep
      split at hstep
      · injection hstep with he
        subst he
        by_cases hij : i = j
        · subst hij
          rw [hj] at hi
          cases hi
          exact ⟨{ w with pc := .cb, signaled := true, waitStatus := normStatus w.waitStatus }, by simp [List.getElem?_set, hilt], Or.inr rfl⟩
        · exact ⟨w, by rw [List.getElem?_set_ne (fun h => hij h.symm)]; exact hi, hq⟩
      · exact Option.noConfusion hstep
  | waiterCallback j =>
    simp only [ikfStep] at hstep
    cases hj : s.waiters[j]? with
    | none => rw [hj] at hstep; exact Option.noConfusion hstep
    | some wj =>
      rw [hj] at hstep
      dsimp only at hstep
      split at hstep
      · injection hstep with he
        subst he
        by_cases hij : i = j
        · subst hij
          rw [hj] at hi
          cases hi
          rcases hq with h | h
          · rw [show w.pc = WaiterPc.cb from by assumption] at h
            exact WaiterPc.noConfusion h
          · exact ⟨{ w with pc := .lockCheck }, by simp [List.getElem?_set, hilt], Or.inr h⟩
        · exact ⟨w, by rw [List.getElem?_set_ne (fun h => hij h.symm)]; exact hi, hq⟩
      · exact Option.noConfusion hstep
  | waiterLock j =>
    simp only [ikfStep] at hstep
    cases hj : s.waiters[j]? with
    | none => rw [hj] at hstep; exact Option.noConfusion hstep
    | some wj =>
      rw [hj] at hstep
      dsimp only at hstep
      split at hstep
      · split at hstep <;>
          (injection hstep with he
           subst he
           by_cases hij : i = j)
        · subst hij
          rw [hj] at hi
          cases hi
          rcases hq with h | h
          · rw [show w.pc = WaiterPc.lockCheck from by assumption] at h
            exact WaiterPc.noConfusion h
          · exact ⟨{ w with pc := .done }, by simp [List.getElem?_set, hilt], Or.inr h⟩
        · exact ⟨w, by rw [List.getElem?_set_ne (fun h => hij h.symm)]; exact hi, hq⟩
        · subst hij
          rw [hj] at hi
          cases hi
          rcases hq with h | h
          · rw [show w.pc = WaiterPc.lockCheck from by assumption] at h
            exact WaiterPc.noConfusion h
          · exact ⟨{ w with pc := .done, inList := false }, by simp [List.getElem?_set, hilt], Or.inr h⟩
        · exact ⟨w, by rw [List.getElem?_set_ne (fun h => hij h.symm)]; exact hi, hq⟩
      · exact Option.noConfusion hstep
  | exitStart =>
    simp only [ikfStep] at hstep
    split at hstep
    · injection hstep with he
      subst he
      exact ⟨w, hi, hq⟩
    · exact Option.noConfusion hstep
  | exitStep =>
    simp only [ikfStep] at hstep
    cases hpc2 : s.exitPc with
    | notCalled => rw [hpc2] at hstep; exact Option.noConfusion hstep
    | finished => rw [hpc2] at hstep; exact Option.noConfusion hstep
    | loop k =>
      rw [hpc2] at hstep
      dsimp only at hstep
      cases hk : s.waiters[k]? with
      | none =>
        rw [hk] at hstep
        dsimp only at hstep
        injection hstep with he
        subst he
        exact ⟨w, hi, hq⟩
      | some wk =>
        rw [hk] at hstep
        dsimp only at hstep
        split at hstep
        · injection hstep with he
          subst he
          by_cases hik : i = k
          · subst hik
            rw [hk] at hi
            cases hi
            exact ⟨{ w with shouldStop := true }, by simp [List.getElem?_set, hilt], hq⟩
          · exact ⟨w, by rw [List.getElem?_set_ne (fun h => hik h.symm)]; exact hi, hq⟩
        · injection hstep with he
          subst he
          exact ⟨w, hi, hq⟩
    | stopping k =>
      rw [hpc2] at hstep
      dsimp only at hstep
      cases hk : s.waiters[k]? with
      | none => rw [hk] at hstep; exact Option.noConfusion hstep
      | some wk =>
        rw [hk] at hstep
        dsimp only at hstep
        split at hstep
        · injection hstep with he
          subst he
          by_cases hik : i = k
          · subst hik
            rw [hk] at hi
            cases hi
            exact ⟨{ w with inList := false }, by simp [List.getElem?_set, hilt], hq⟩
          · exact ⟨w, by rw [List.getElem?_set_ne (fun h => hik h.symm)]; exact hi, hq⟩
        · exact Option.noConfusion hstep

theorem ikfRun_preserves_past {i : Nat} :
    ∀ (ls : List IkfLabel) (s t : IkfSys),
      (∃ w, s.waiters[i]? = some w ∧ (w.pc = .lockCheck ∨ w.pc = .done) ∧
        w.signaled = false) →
      ikfRun ls s = some t →
      ∃ w, t.waiters[i]? = some w ∧ (w.pc = .lockCheck ∨ w.pc = .done) ∧
        w.signaled = false := by
  intro ls
  induction ls with
  | nil =>
    intro s t hw hrun
    simp only [ikfRun] at hrun
    injection hrun with he
    subst he
    exact hw
  | cons l rest ih =>
    intro s t hw hrun
    simp only [ikfRun] at hrun
    cases hstep : ikfStep l s with
    | none => rw [hstep] at hrun; exact Option.noConfusion hrun
    | some smid =>
      rw [hstep] at hrun
      exact ih smid t (ikfStep_preserves_past hstep hw) hrun

theorem ikfRun_preserves_committed {i : Nat} :
    ∀ (ls : List IkfLabel) (s t : IkfSys),
      (∃ w, s.waiters[i]? = some w ∧ (w.pc = .setSig ∨ w.signaled = true)) →
      ikfRun ls s = some t →
      ∃ w, t.waiters[i]? = some w ∧ (w.pc = .setSig ∨ w.signaled = true) := by
  intro ls
  induction ls with
  | nil =>
    intro s t hw hrun
    simp only [ikfRun] at hrun
    injection hrun with he
    subst he
    exact hw
  | cons l rest ih =>
    intro s t hw hrun
    simp only [ikfRun] at hrun
    cases hstep : ikfStep l s with
    | none => rw [hstep] at hrun; exact Option.noConfusion hrun
    | some smid =>
      rw [hstep] at hrun
      exact ih smid t (ikfStep_preserves_committed hstep hw) hrun

/-- C1: for every schedule in which `gcip_ikf_awaiter_exit` runs to
completion over `n` outstanding waits: zero live waiters remain (every
thread record is off the list and every thread function has returned); the
`signaled_cb` callback was invoked exactly once per wait (the log has length
`n` and exactly one entry per waiter), always with a terminal status; every
waiter that had not observed its fence signaled got status -ERESTARTSYS; and
`gcip_ikf_wait_timeout` fails with -EPERM once `stop_threads` is set. -/
theorem gcip_ikf_awaiter_exit_spec (n : Nat) (sched : List IkfLabel) (sf : IkfSys)
    (hrun : ikfRun sched (ikfInit n) = some sf)
    (hfin : sf.exitPc = .finished) :
    (∀ (i : Nat) (w : Waiter), sf.waiters[i]? = some w →
      w.inList = false ∧ w.pc = .done) ∧
    sf.log.length = n ∧
    (∀ i, i < n → ∃ st, logFor sf.log i = [(i, st)] ∧ TerminalStatus st) ∧
    (∀ (i : Nat) (w : Waiter), sf.waiters[i]? = some w → w.signaled = false →
      logFor sf.log i = [(i, -ERESTARTSYS)]) ∧
    (∀ env : IkfWaitEnv, env.fencePresent = true → env.allocOk = true →
      env.kthreadCreateRet = 0 → gcip_ikf_wait_timeout_result true env = -EPERM) := by
  have hinv : IkfInv n sf := ikfRun_preserves sched _ sf (IkfInv_init n) hrun
  have hfw := ikfFinal_waiter hinv hfin
  have hlen : sf.waiters.length = n := hinv.1
  refine ⟨?_, ?_, ?_, ?_, ?_⟩
  · intro i w hi
    exact ⟨(hfw i w hi).1, (hfw i w hi).2.1⟩
  · rw [length_eq_sum_logFor n sf.log hinv.2.2.2.1]
    have hone : ∀ i ∈ Finset.range n, (logFor sf.log i).length = 1 := by
      intro i hi2
      have hilt : i < sf.waiters.length := by
        rw [hlen]
        exact Finset.mem_range.mp hi2
      have hwi : sf.waiters[i]? = some (sf.waiters.get ⟨i, hilt⟩) :=
        List.getElem?_eq_getElem hilt
      rcases hfw i _ hwi with ⟨_, _, hA, hB⟩
      cases hsg : (sf.waiters.get ⟨i, hilt⟩).signaled with
      | true => rw [(hA hsg).1]; rfl
      | false => rw [hB hsg]; rfl
    rw [Finset.sum_congr rfl hone]
    simp
  · intro i hin
    have hilt : i < sf.waiters.length := by
      rw [hlen]
      exact hin
    have hwi : sf.waiters[i]? = some (sf.waiters.get ⟨i, hilt⟩) :=
      List.getElem?_eq_getElem hilt
    rcases hfw i _ hwi with ⟨_, _, hA, hB⟩
    cases hsg : (sf.waiters.get ⟨i, hilt⟩).signaled with
    | true => exact ⟨_, (hA hsg).1, (hA hsg).2.1⟩
    | false => exact ⟨-ERESTARTSYS, hB hsg, Or.inr (Or.inr rfl)⟩
  · intro i w hi hsg
    exact (hfw i w hi).2.2.2 hsg
  · intro env h1 h2 h3
    simp [gcip_ikf_wait_timeout_result, h1, h2, h3]

/-- A schedule with one outstanding wait that never gets signaled: exit
cancels it. -/
def c1Sched : List IkfLabel :=
  [.exitStart, .exitStep, .wakeStopped 0, .waiterCheckStop 0, .waiterLock 0,
   .exitStep, .exitStep]

def c1Final : IkfSys :=
  ⟨[⟨.done, true, false, -ERESTARTSYS, false, false⟩], true, .finished,
   [(0, -ERESTARTSYS)]⟩

theorem gcip_ikf_awaiter_exit_spec_witness :
    c1Final.log.length = 1 ∧
    logFor c1Final.log 0 = [(0, -ERESTARTSYS)] ∧
    gcip_ikf_wait_timeout_result true ⟨true, true, 0⟩ = -EPERM := by
  have h := gcip_ikf_awaiter_exit_spec 1 c1Sched c1Final (by decide) (by decide)
  refine ⟨h.2.1, ?_, h.2.2.2.2 ⟨true, true, 0⟩ rfl rfl rfl⟩
  exact h.2.2.2.1 0 ⟨WaiterPc.done, true, false, -ERESTARTSYS, false, false⟩
    (by decide) rfl

/-! #### The exit/signal race (claim C6)

The schedule below exhibits the race: `gcip_ikf_awaiter_exit` has already set
`stop_threads` (but not yet called `kthread_stop`) when the fence is signaled
and the waiter reaches its `kthread_should_stop()` check — which is still
clear — so the waiter writes `thread->signaled` and delivers the normal
signaled callback even though `stop_threads` was already set at that moment.
Exactly one callback is still delivered; the tie-break flag is the per-task
kthread-stop flag, not `stop_threads`. -/

def c6Pre : List IkfLabel :=
  [.exitStart, .signalFence 0, .wakeSignaled 0 5, .waiterCheckStop 0]

/-- State reached by `c6Pre`: `stop_threads` already true while the waiter is
about to write its completion flag. -/
def c6Mid : IkfSys :=
  ⟨[⟨.setSig, false, false, 6, true, true⟩], true, .loop 0, []⟩

def c6Post : List IkfLabel :=
  [.waiterSetSignaled 0, .waiterCallback 0, .waiterLock 0, .exitStep, .exitStep,
   .exitStep]

def c6Final : IkfSys :=
  ⟨[⟨.done, true, true, 6, true, false⟩], true, .finished, [(0, 6)]⟩

/-- C6 counterexample: a reachable interleaving in which the awaiter's
termination flag `stop_threads` is already set at the moment the waiter's
completion flag `signaled` is about to be written, and yet the waiter — not
exit's cancellation sweep — delivers the (single) callback, with the
signaled status 6 rather than canceled: ownership is not decided by
`stop_threads` at that moment. -/
theorem ikf_stop_threads_tiebreak_counterexample :
    ikfRun c6Pre (ikfInit 1) = some c6Mid ∧
    c6Mid.stopThreads = true ∧
    (c6Mid.waiters[0]?).map Waiter.pc = some WaiterPc.setSig ∧
    ikfRun c6Post c6Mid = some c6Final ∧
    c6Final.exitPc = .finished ∧
    c6Final.log = [(0, 6)] ∧
    ((0, -ERESTARTSYS) ∈ c6Final.log → False) := by
  refine ⟨by decide, rfl, rfl, by decide, rfl, rfl, by decide⟩

/-- C6 (amended): a waiter whose fence is signaled concurrently with
`gcip_ikf_awaiter_exit` delivers exactly one callback — either the waiter's
normal signaled path or exit's cancellation sweep, never both — and
ownership is decided by the waiter's own kthread-stop flag (set by
`kthread_stop()`) at the `kthread_should_stop()` check performed just before
the completion flag would be written: if the flag was already set there, the
waiter yields and exit delivers status canceled (-ERESTARTSYS); otherwise
the waiter delivers a non-canceled terminal status. -/
theorem ikf_race_single_callback_tiebreak (n : Nat) (pre post : List IkfLabel)
    (mid sf : IkfSys) (i : Nat) (w : Waiter)
    (hpre : ikfRun pre (ikfInit n) = some mid)
    (hw : mid.waiters[i]? = some w) (hpc : w.pc = .checkStop)
    (hpost : ikfRun (IkfLabel.waiterCheckStop i :: post) mid = some sf)
    (hfin : sf.exitPc = .finished) :
    if w.shouldStop = true then logFor sf.log i = [(i, -ERESTARTSYS)]
    else ∃ st, logFor sf.log i = [(i, st)] ∧ TerminalStatus st ∧
      st ≠ -ERESTARTSYS := by
  have hinvMid : IkfInv n mid := ikfRun_preserves pre _ mid (IkfInv_init n) hpre
  have hsig : w.signaled = false :=
    signaled_false_of_early_pc (hinvMid.2.2.2.2 i w hw) (Or.inr (Or.inl hpc))
  simp only [ikfRun] at hpost
  cases hstep : ikfStep (IkfLabel.waiterCheckStop i) mid with
  | none => rw [hstep] at hpost; exact Option.noConfusion hpost
  | some mid2 =>
    rw [hstep] at hpost
    have hilt : i < mid.waiters.length := (List.getElem?_eq_some.mp hw).1
    have hinv2 : IkfInv n mid2 := ikfStep_preserves hinvMid hstep
    have hinvF : IkfInv n sf := ikfRun_preserves post _ sf hinv2 hpost
    simp only [ikfStep] at hstep
    rw [hw] at hstep
    dsimp only at hstep
    rw [if_pos hpc] at hstep
    injection hstep with he
    subst he
    have hfw := ikfFinal_waiter hinvF hfin
    cases hss : w.shouldStop with
    | true =>
      have hpast : ∃ w2, sf.waiters[i]? = some w2 ∧
          (w2.pc = .lockCheck ∨ w2.pc = .done) ∧ w2.signaled = false := by
        refine ikfRun_preserves_past post _ sf
          ⟨{ w with pc := if w.shouldStop then .lockCheck else .setSig },
            by simp [List.getElem?_set, hilt], ?_, hsig⟩ hpost
        rw [hss]
        exact Or.inl (by simp)
      rw [if_pos rfl]
      obtain ⟨w2, hw2, _, hsg2⟩ := hpast
      exact (hfw i w2 hw2).2.2.2 hsg2
    | false =>
      have hcom : ∃ w2, sf.waiters[i]? = some w2 ∧
          (w2.pc = .setSig ∨ w2.signaled = true) := by
        refine ikfRun_preserves_committed post _ sf
          ⟨{ w with pc := if w.shouldStop then .lockCheck else .setSig },
            by simp [List.getElem?_set, hilt], ?_⟩ hpost
        rw [hss]
        exact Or.inl (by simp)
      rw [if_neg (by simp)]
      obtain ⟨w2, hw2, hq⟩ := hcom
      have hdone : w2.pc = .done := (hfw i w2 hw2).2.1
      have hsg2 : w2.signaled = true := by
        rcases hq with h | h
        · rw [hdone] at h
          exact WaiterPc.noConfusion h
        · exact h
      obtain ⟨hlog2, hterm, hne⟩ := (hfw i w2 hw2).2.2.1 hsg2
      exact ⟨w2.waitStatus, hlog2, hterm, hne⟩

/-- State reached by the `c6Pre` prefix without the final check step. -/
def c6MidCS : IkfSys :=
  ⟨[⟨.checkStop, false, false, 6, true, true⟩], true, .loop 0, []⟩

theorem ikf_race_single_callback_tiebreak_witness :
    (if ((⟨.checkStop, false, false, 6, true, true⟩ : Waiter)).shouldStop = true
     then logFor c6Final.log 0 = [(0, -ERESTARTSYS)]
     else ∃ st, logFor c6Final.log 0 = [(0, st)] ∧ TerminalStatus st ∧
       st ≠ -ERESTARTSYS) ∧
    logFor c6Final.log 0 = [(0, 6)] := by
  refine ⟨?_, by decide⟩
  exact ikf_race_single_callback_tiebreak 1
    [.exitStart, .signalFence 0, .wakeSignaled 0 5]
    c6Post c6MidCS c6Final 0
    ⟨.checkStop, false, false, 6, true, true⟩
    (by decide) (by decide) rfl (by decide) (by decide)

/-! #### Lemmas about the mapping tree -/

theorem compare_pos_iff (m : EdgetpuMapping) (iova : Nat) :
    0 < compare m iova ↔ iova < m.device_address := by
  unfold compare
  split_ifs with h1 h2 <;> constructor <;> intro h <;> omega

theorem compare_neg_iff (m : EdgetpuMapping) (iova : Nat) :
    compare m iova < 0 ↔ m.device_address < iova := by
  unfold compare
  split_ifs with h1 h2 <;> constructor <;> intro h <;> omega

theorem compare_eq_zero_iff (m : EdgetpuMapping) (iova : Nat) :
    ¬ 0 < compare m iova → ¬ compare m iova < 0 → m.device_address = iova := by
  unfold compare
  split_ifs with h1 h2 <;> intro ha hb <;> omega

theorem mem_inorder_iff (t : MapTree) (x : EdgetpuMapping) :
    x ∈ inorder t ↔ x ∈ presentMappings t := by
  induction t with
  | leaf => simp [inorder, presentMappings]
  | node l m r ihl ihr =>
    simp only [inorder, presentMappings, List.mem_append, List.mem_cons,
      Multiset.mem_cons, Multiset.mem_add, ihl, ihr]
    tauto

theorem addLocked_presentMappings :
    ∀ (t t2 : MapTree) (m : EdgetpuMapping),
      addLocked t m = some t2 → presentMappings t2 = m ::ₘ presentMappings t := by
  intro t
  induction t with
  | leaf =>
    intro t2 m h
    simp only [addLocked] at h
    injection h with he
    subst he
    simp [presentMappings]
  | node l this r ihl ihr =>
    intro t2 m h
    simp only [addLocked] at h
    split_ifs at h with h1 h2
    · rcases Option.map_eq_some'.mp h with ⟨l2, hl2, ht2⟩
      subst ht2
      simp only [presentMappings, ihl l2 m hl2]
      rw [Multiset.cons_add, Multiset.cons_swap]
    · rcases Option.map_eq_some'.mp h with ⟨r2, hr2, ht2⟩
      subst ht2
      simp only [presentMappings, ihr r2 m hr2]
      rw [Multiset.add_cons, Multiset.cons_swap]

theorem addLocked_mem (t t2 : MapTree) (m x : EdgetpuMapping)
    (h : addLocked t m = some t2) :
    x ∈ inorder t2 ↔ x = m ∨ x ∈ inorder t := by
  rw [mem_inorder_iff, addLocked_presentMappings t t2 m h, Multiset.mem_cons,
    mem_inorder_iff]

theorem addLocked_isBST :
    ∀ (t t2 : MapTree) (m : EdgetpuMapping),
      IsBST t → addLocked t m = some t2 → IsBST t2 := by
  intro t
  induction t with
  | leaf =>
    intro t2 m _ h
    simp only [addLocked] at h
    injection h with he
    subst he
    refine ⟨trivial, trivial, ?_, ?_⟩ <;> intro x hx <;> simp [inorder] at hx
  | node l this r ihl ihr =>
    intro t2 m hbst h
    obtain ⟨hbl, hbr, hkl, hkr⟩ := hbst
    simp only [addLocked] at h
    split_ifs at h with h1 h2
    · rcases Option.map_eq_some'.mp h with ⟨l2, hl2, ht2⟩
      subst ht2
      have haddr : m.device_address < this.device_address :=
        (compare_pos_iff this m.device_address).mp h1
      refine ⟨ihl l2 m hbl hl2, hbr, ?_, hkr⟩
      intro x hx
      rcases (addLocked_mem l l2 m x hl2).mp hx with hx2 | hx2
      · subst hx2
        exact haddr
      · exact hkl x hx2
    · rcases Option.map_eq_some'.mp h with ⟨r2, hr2, ht2⟩
      subst ht2
      have haddr : this.device_address < m.device_address :=
        (compare_neg_iff this m.device_address).mp h2
      refine ⟨hbl, ihr r2 m hbr hr2, hkl, ?_⟩
      intro x hx
      rcases (addLocked_mem r r2 m x hr2).mp hx with hx2 | hx2
      · subst hx2
        exact haddr
      · exact hkr x hx2

theorem addLocked_none_iff :
    ∀ (t : MapTree) (m : EdgetpuMapping), IsBST t →
      (addLocked t m = none ↔
        ∃ x ∈ inorder t, x.device_address = m.device_address) := by
  intro t
  induction t with
  | leaf =>
    intro m _
    constructor
    · intro h
      exact Option.noConfusion h
    · intro ⟨x, hx, _⟩
      simp [inorder] at hx
  | node l this r ihl ihr =>
    intro m hbst
    obtain ⟨hbl, hbr, hkl, hkr⟩ := hbst
    simp only [addLocked]
    split_ifs with h1 h2
    · have haddr : m.device_address < this.device_address :=
        (compare_pos_iff this m.device_address).mp h1
      rw [Option.map_eq_none']
      rw [ihl m hbl]
      constructor
      · intro ⟨x, hx, hxe⟩
        exact ⟨x, by simp [inorder]; exact Or.inl hx, hxe⟩
      · intro ⟨x, hx, hxe⟩
        simp only [inorder, List.mem_append, List.mem_cons] at hx
        rcases hx with hx | hx | hx
        · exact ⟨x, hx, hxe⟩
        · subst hx
          omega
        · have := hkr x hx
          omega
    · have haddr : this.device_address < m.device_address :=
        (compare_neg_iff this m.device_address).mp h2
      rw [Option.map_eq_none']
      rw [ihr m hbr]
      constructor
      · intro ⟨x, hx, hxe⟩
        exact ⟨x, by simp [inorder]; exact Or.inr (Or.inr hx), hxe⟩
      · intro ⟨x, hx, hxe⟩
        simp only [inorder, List.mem_append, List.mem_cons] at hx
        rcases hx with hx | hx | hx
        · have := hkl x hx
          omega
        · subst hx
          omega
        · exact ⟨x, hx, hxe⟩
    · have haddr : this.device_address = m.device_address :=
        compare_eq_zero_iff this m.device_address h1 h2
      simp only [true_iff]
      exact ⟨this, by simp [inorder], haddr⟩

/-- C2 counterexample: two mappings whose device-address ranges overlap (but
whose start addresses differ) are both inserted; the second is not rejected
and the tracker ends up holding both. -/
theorem edgetpu_mapping_add_overlap_counterexample :
    rangesOverlap ⟨0, 16, true⟩ ⟨8, 16, true⟩ ∧
    (edgetpu_mapping_add edgetpu_mapping_init ⟨0, 16, true⟩).1 = 0 ∧
    (edgetpu_mapping_add
      (edgetpu_mapping_add edgetpu_mapping_init ⟨0, 16, true⟩).2 ⟨8, 16, true⟩).1 = 0 ∧
    (edgetpu_mapping_add
      (edgetpu_mapping_add edgetpu_mapping_init ⟨0, 16, true⟩).2 ⟨8, 16, true⟩).2.count = 2 ∧
    ⟨0, 16, true⟩ ∈ presentMappings
      (edgetpu_mapping_add
        (edgetpu_mapping_add edgetpu_mapping_init ⟨0, 16, true⟩).2 ⟨8, 16, true⟩).2.rb ∧
    ⟨8, 16, true⟩ ∈ presentMappings
      (edgetpu_mapping_add
        (edgetpu_mapping_add edgetpu_mapping_init ⟨0, 16, true⟩).2 ⟨8, 16, true⟩).2.rb := by
  decide

/-- C2 (amended): `edgetpu_mapping_add` rejects a second mapping exactly when
its `device_address` equals that of a live mapping (not on mere range
overlap): after a successful insert of `m1`, inserting `m2` with the same
`device_address` fails with -EBUSY and leaves the tracker unchanged, with
`m1` still the one present. -/
theorem edgetpu_mapping_add_duplicate_address (root root1 : MappingRoot)
    (m1 m2 : EdgetpuMapping)
    (hbst : IsBST root.rb) (h2rel : m2.hasRelease = true)
    (haddr : m2.device_address = m1.device_address)
    (h1 : edgetpu_mapping_add root m1 = (0, root1)) :
    edgetpu_mapping_add root1 m2 = (-EBUSY, root1) ∧
    presentMappings root1.rb = m1 ::ₘ presentMappings root.rb ∧
    root1.count = root.count + 1 := by
  have hrel1 : m1.hasRelease = true := by
    cases hx : m1.hasRelease with
    | true => rfl
    | false =>
      unfold edgetpu_mapping_add at h1
      rw [hx] at h1
      simp only [Bool.not_false, if_pos] at h1
      have : (-EINVAL : Int) = 0 := congrArg Prod.fst h1
      simp [EINVAL] at this
  unfold edgetpu_mapping_add at h1
  rw [hrel1] at h1
  simp only [Bool.not_true, Bool.false_eq_true, if_false] at h1
  cases haL : addLocked root.rb m1 with
  | none =>
    rw [haL] at h1
    have : (-EBUSY : Int) = 0 := congrArg Prod.fst h1
    simp [EBUSY] at this
  | some t =>
    rw [haL] at h1
    have hroot1 : root1 = ⟨t, root.count + 1⟩ := (congrArg Prod.snd h1).symm
    subst hroot1
    have hpres : presentMappings t = m1 ::ₘ presentMappings root.rb :=
      addLocked_presentMappings root.rb t m1 haL
    have hbst1 : IsBST t := addLocked_isBST root.rb t m1 hbst haL
    refine ⟨?_, hpres, rfl⟩
    have hdup : addLocked t m2 = none := by
      rw [addLocked_none_iff t m2 hbst1]
      refine ⟨m1, ?_, haddr.symm⟩
      rw [mem_inorder_iff, hpres]
      exact Multiset.mem_cons_self m1 _
    unfold edgetpu_mapping_add
    rw [h2rel]
    simp only [Bool.not_true, Bool.false_eq_true, if_false]
    rw [hdup]

theorem edgetpu_mapping_add_duplicate_address_witness :
    edgetpu_mapping_add ⟨.node .leaf ⟨5, 10, true⟩ .leaf, 1⟩ ⟨5, 20, true⟩ =
      (-EBUSY, ⟨.node .leaf ⟨5, 10, true⟩ .leaf, 1⟩) := by
  have h := edgetpu_mapping_add_duplicate_address edgetpu_mapping_init
    ⟨MapTree.node .leaf ⟨5, 10, true⟩ .leaf, 1⟩ ⟨5, 10, true⟩ ⟨5, 20, true⟩
    (by decide) rfl rfl (by decide)
  exact h.1

/-- C4: on a tracker state with the binary-search-tree ordering and pairwise
non-overlapping live ranges, `edgetpu_mapping_find_iova_range` returns the
(unique) mapping whose `[device_address, device_address + size)` range
contains the address when one exists, and NULL when none does. -/
theorem edgetpu_mapping_find_iova_range_spec :
    ∀ (t : MapTree) (a : Nat), IsBST t → PairwiseNonOverlap t →
      (∀ m : EdgetpuMapping, edgetpu_mapping_find_iova_range t a = some m →
        m ∈ inorder t ∧ containsIova m a) ∧
      (edgetpu_mapping_find_iova_range t a = none →
        ∀ m ∈ inorder t, ¬ containsIova m a) := by
  intro t
  induction t with
  | leaf =>
    intro a _ _
    constructor
    · intro m h
      exact Option.noConfusion h
    · intro _ m hm
      simp [inorder] at hm
  | node l this r ihl ihr =>
    intro a hbst hno
    obtain ⟨hbl, hbr, hkl, hkr⟩ := hbst
    have hsplit := List.pairwise_append.mp hno
    have hpl : PairwiseNonOverlap l := hsplit.1
    have hpr : PairwiseNonOverlap r := (List.pairwise_cons.mp hsplit.2.1).2
    have hcross : ∀ x ∈ inorder l, ¬ rangesOverlap x this := by
      intro x hx
      exact hsplit.2.2 x hx this (List.mem_cons_self this _)
    by_cases hble : this.device_address + this.size ≤ a
    · have hfind : edgetpu_mapping_find_iova_range (MapTree.node l this r) a =
          edgetpu_mapping_find_iova_range r a := by
        simp [edgetpu_mapping_find_iova_range, iova_in_mapping, hble]
      rw [hfind]
      constructor
      · intro m h
        obtain ⟨hm, hc⟩ := (ihr a hbr hpr).1 m h
        refine ⟨?_, hc⟩
        simp only [inorder, List.mem_append, List.mem_cons]
        exact Or.inr (Or.inr hm)
      · intro h m hm
        simp only [inorder, List.mem_append, List.mem_cons] at hm
        rcases hm with hm | hm | hm
        · intro hc
          obtain ⟨hc1, hc2⟩ := hc
          have hxl := hkl m hm
          exact hcross m hm ⟨by omega, by omega⟩
        · subst hm
          intro hc
          obtain ⟨hc1, hc2⟩ := hc
          omega
        · exact (ihr a hbr hpr).2 h m hm
    · by_cases halt : a < this.device_address
      · have hfind : edgetpu_mapping_find_iova_range (MapTree.node l this r) a =
            edgetpu_mapping_find_iova_range l a := by
          simp [edgetpu_mapping_find_iova_range, iova_in_mapping, hble, halt]
        rw [hfind]
        constructor
        · intro m h
          obtain ⟨hm, hc⟩ := (ihl a hbl hpl).1 m h
          refine ⟨?_, hc⟩
          simp only [inorder, List.mem_append, List.mem_cons]
          exact Or.inl hm
        · intro h m hm
          simp only [inorder, List.mem_append, List.mem_cons] at hm
          rcases hm with hm | hm | hm
          · exact (ihl a hbl hpl).2 h m hm
          · subst hm
            intro hc
            obtain ⟨hc1, hc2⟩ := hc
            omega
          · intro hc
            obtain ⟨hc1, hc2⟩ := hc
            have := hkr m hm
            omega
      · have hfind : edgetpu_mapping_find_iova_range (MapTree.node l this r) a =
            some this := by
          simp [edgetpu_mapping_find_iova_range, iova_in_mapping, hble, halt]
        rw [hfind]
        constructor
        · intro m h
          injection h with he
          subst he
          refine ⟨?_, by omega, by omega⟩
          simp [inorder]
        · intro h
          exact Option.noConfusion h

theorem edgetpu_mapping_find_iova_range_spec_witness :
    edgetpu_mapping_find_iova_range
      (.node (.node .leaf ⟨0, 16, true⟩ .leaf) ⟨32, 16, true⟩ .leaf) 40 =
        some ⟨32, 16, true⟩ ∧
    containsIova ⟨32, 16, true⟩ 40 ∧
    ¬ containsIova ⟨0, 16, true⟩ 100 ∧
    ¬ containsIova ⟨32, 16, true⟩ 100 := by
  have h1 := (edgetpu_mapping_find_iova_range_spec
    (.node (.node .leaf ⟨0, 16, true⟩ .leaf) ⟨32, 16, true⟩ .leaf) 40
    (by decide) (by decide)).1 ⟨32, 16, true⟩ (by decide)
  have h2 := (edgetpu_mapping_find_iova_range_spec
    (.node (.node .leaf ⟨0, 16, true⟩ .leaf) ⟨32, 16, true⟩ .leaf) 100
    (by decide) (by decide)).2 (by decide)
  exact ⟨by decide, h1.2, h2 ⟨0, 16, true⟩ (by decide), h2 ⟨32, 16, true⟩ (by decide)⟩

/-! #### Total size (claim C8) -/

theorem foldl_add_size (l : List EdgetpuMapping) :
    ∀ acc : Nat, l.foldl (fun total m => total + m.size) acc =
      acc + (l.map EdgetpuMapping.size).sum := by
  induction l with
  | nil =>
    intro acc
    simp
  | cons x xs ih =>
    intro acc
    simp only [List.foldl_cons, List.map_cons, List.sum_cons, ih (acc + x.size)]
    omega

/-- C8: `edgetpu_mappings_total_size` returns exactly the sum of the sizes of
the mappings present in the tracker, and 0 for an empty tracker. -/
theorem edgetpu_mappings_total_size_spec (t : MapTree) :
    edgetpu_mappings_total_size t =
      ((presentMappings t).map EdgetpuMapping.size).sum ∧
    edgetpu_mappings_total_size MapTree.leaf = 0 := by
  refine ⟨?_, rfl⟩
  rw [edgetpu_mappings_total_size, foldl_add_size, Nat.zero_add]
  induction t with
  | leaf => rfl
  | node l m r ihl ihr =>
    simp only [inorder, presentMappings, List.map_append, List.map_cons,
      List.sum_append, List.sum_cons, Multiset.map_cons, Multiset.map_add,
      Multiset.sum_cons, Multiset.sum_add, ihl, ihr]
    omega

/-- C9: a mapping without a release callback is rejected with -EINVAL and the
tracker (any tracker, a duplicate-address one included) is left unchanged —
the check precedes the duplicate-address walk. -/
theorem edgetpu_mapping_add_no_release (root : MappingRoot) (m : EdgetpuMapping)
    (h : m.hasRelease = false) :
    edgetpu_mapping_add root m = (-EINVAL, root) := by
  unfold edgetpu_mapping_add
  rw [h]
  rfl

theorem edgetpu_mapping_add_no_release_witness :
    edgetpu_mapping_add ⟨.node .leaf ⟨5, 10, true⟩ .leaf, 1⟩ ⟨5, 10, false⟩ =
      (-EINVAL, ⟨.node .leaf ⟨5, 10, true⟩ .leaf, 1⟩) :=
  edgetpu_mapping_add_no_release _ _ rfl

/-- C5: the kernel-synthesized VII response codes are pairwise distinct, all
fit the 16-bit `code` field, all lie at or above
`VII_RESPONSE_CODE_KERNEL_BASE` — disjoint from the firmware-native range
below the base — the set covers the five required situations (timeout after
submission, enqueue failure, in-fence error, in-fence timeout, cancellation),
and the cancellation response carries the fatal-error bitmask in `retval`. -/
theorem vii_kernel_response_codes_spec :
    kernelResponseCodes.Nodup ∧
    kernelResponseCodes.length = 5 ∧
    (∀ c ∈ kernelResponseCodes, ¬ firmwareNativeCode c ∧ fitsU16 c) ∧
    (∀ seq bitmask : Nat,
      (mkKernelCanceledResponse seq bitmask).code =
        VII_RESPONSE_CODE_KERNEL_CANCELED ∧
      (mkKernelCanceledResponse seq bitmask).retval = bitmask ∧
      ¬ firmwareNativeCode (mkKernelCanceledResponse seq bitmask).code) := by
  refine ⟨by decide, rfl, by decide, fun seq bitmask =>
    ⟨rfl, rfl, (by decide : ¬ firmwareNativeCode VII_RESPONSE_CODE_KERNEL_CANCELED)⟩⟩

theorem vii_kernel_response_codes_spec_witness :
    ¬ firmwareNativeCode VII_RESPONSE_CODE_KERNEL_CANCELED ∧
    fitsU16 VII_RESPONSE_CODE_KERNEL_CANCELED ∧
    (mkKernelCanceledResponse 7 3).retval = 3 := by
  have h := vii_kernel_response_codes_spec
  exact ⟨(h.2.2.1 _ (by decide)).1, (h.2.2.1 _ (by decide)).2, (h.2.2.2 7 3).2.1⟩

/-- C3: on a wakelock acquire, the group mailbox is attached exactly when the
count crosses 0 to 1 with the client in a group (and never otherwise), with
`edgetpu_pm_get` strictly before the attach; on a release, the mailbox is
detached exactly when the count crosses 1 to 0 with the client in a group
(and never otherwise), strictly before `edgetpu_pm_put`. -/
theorem wakelock_mailbox_power_ordering (env : AcquireEnv) (c : Client) :
    (countEffect (edgetpu_ioctl_acquire_wakelock env c).2.2 .attachMailbox =
      if acquireCrossing env c then 1 else 0) ∧
    (acquireCrossing env c →
      effectBefore (edgetpu_ioctl_acquire_wakelock env c).2.2
        .pmGet .attachMailbox) ∧
    (countEffect (edgetpu_ioctl_release_wakelock c).2.2 .detachMailbox =
      if releaseCrossing c then 1 else 0) ∧
    (releaseCrossing c →
      effectBefore (edgetpu_ioctl_release_wakelock c).2.2
        .detachMailbox .pmPut) := by
  have hrelease :
      (countEffect (edgetpu_ioctl_release_wakelock c).2.2 .detachMailbox =
        if releaseCrossing c then 1 else 0) ∧
      (releaseCrossing c →
        effectBefore (edgetpu_ioctl_release_wakelock c).2.2
          .detachMailbox .pmPut) := by
    unfold edgetpu_ioctl_release_wakelock edgetpu_wakelock_release
    by_cases h0 : c.wakelock.req_count = 0
    · rw [if_pos h0]
      have hnc : ¬ releaseCrossing c := by
        intro hr
        rw [hr.1] at h0
        exact Nat.noConfusion h0
      constructor
      · rw [if_neg hnc]
        simp [EINVAL, countEffect]
      · intro hr
        exact absurd hr hnc
    · rw [if_neg h0]
      dsimp only
      by_cases h1 : c.wakelock.req_count = 1
      · have hnotlt : ¬ ((c.wakelock.req_count - 1 : Nat) : Int) < 0 := by omega
        rw [if_neg hnotlt]
        have heq0 : ((c.wakelock.req_count - 1 : Nat) : Int) = 0 := by omega
        cases hgr : c.group with
        | none =>
          have hnc : ¬ releaseCrossing c := by
            intro hr
            have h2 := hr.2
            rw [hgr] at h2
            exact Bool.noConfusion h2
          rw [if_neg (by simp)]
          constructor
          · rw [if_neg hnc]
            simp [countEffect]
          · intro hr
            exact absurd hr hnc
        | some g =>
          have hc : releaseCrossing c := ⟨h1, by rw [hgr]; rfl⟩
          have hcond : ((c.wakelock.req_count - 1 : Nat) : Int) = 0 ∧
              (some g).isSome = true := ⟨heq0, rfl⟩
          rw [if_pos hcond]
          constructor
          · rw [if_pos hc]
            simp [countEffect]
          · intro _
            exact ⟨0, 1, Nat.zero_lt_one, rfl, rfl⟩
      · have hnotlt : ¬ ((c.wakelock.req_count - 1 : Nat) : Int) < 0 := by omega
        rw [if_neg hnotlt]
        have hne0 : ¬ (((c.wakelock.req_count - 1 : Nat) : Int) = 0 ∧
            c.group.isSome = true) := by
          intro ⟨hz, _⟩
          omega
        rw [if_neg hne0]
        have hnc : ¬ releaseCrossing c := by
          intro hr
          exact h1 hr.1
        constructor
        · rw [if_neg hnc]
          simp [countEffect]
        · intro hr
          exact absurd hr hnc
  refine ⟨?_, ?_, hrelease.1, hrelease.2⟩ <;>
    unfold edgetpu_ioctl_acquire_wakelock edgetpu_wakelock_acquire
  · cases ht : env.thermalSuspended with
    | true =>
      have hnc : ¬ acquireCrossing env c := by
        intro hc
        rw [hc.1] at ht
        exact Bool.noConfusion ht
      rw [if_pos rfl, if_neg hnc]
      simp [countEffect]
    | false =>
      rw [if_neg (by simp)]
      by_cases hpm : env.pmGetRet ≠ 0
      · rw [if_pos hpm]
        have hnc : ¬ acquireCrossing env c := by
          intro hc
          exact hpm hc.2.1
        rw [if_neg hnc]
        simp [countEffect]
      · rw [if_neg hpm]
        dsimp only
        have hpm0 : env.pmGetRet = 0 := by omega
        by_cases hcr : ((c.wakelock.req_count : Int) = 0 ∧ c.group.isSome = true)
        · rw [if_pos hcr]
          have hc : acquireCrossing env c := ⟨ht, hpm0, by omega, hcr.2⟩
          rw [if_pos hc]
          by_cases hat : env.attachRet ≠ 0
          · rw [if_pos hat]
            simp [countEffect]
          · rw [if_neg hat]
            simp [countEffect]
        · rw [if_neg hcr]
          have hnc : ¬ acquireCrossing env c := by
            intro hc
            exact hcr ⟨by rw [hc.2.2.1]; rfl, hc.2.2.2⟩
          rw [if_neg hnc]
          simp [countEffect]
  · intro hc
    rw [if_neg (by rw [hc.1]; simp), if_neg (by rw [hc.2.1]; simp)]
    dsimp only
    rw [if_pos (⟨by rw [hc.2.2.1]; rfl, hc.2.2.2⟩ :
        ((c.wakelock.req_count : Int) = 0 ∧ c.group.isSome = true))]
    by_cases hat : env.attachRet ≠ 0
    · rw [if_pos hat]
      exact ⟨0, 1, Nat.zero_lt_one, rfl, rfl⟩
    · rw [if_neg hat]
      exact ⟨0, 1, Nat.zero_lt_one, rfl, rfl⟩

theorem wakelock_mailbox_power_ordering_witness :
    countEffect (edgetpu_ioctl_acquire_wakelock ⟨false, 0, 0⟩
      ⟨some 1, ⟨0⟩⟩).2.2 .attachMailbox = 1 ∧
    effectBefore (edgetpu_ioctl_acquire_wakelock ⟨false, 0, 0⟩
      ⟨some 1, ⟨0⟩⟩).2.2 .pmGet .attachMailbox ∧
    countEffect (edgetpu_ioctl_release_wakelock ⟨some 1, ⟨1⟩⟩).2.2
      .detachMailbox = 1 ∧
    effectBefore (edgetpu_ioctl_release_wakelock ⟨some 1, ⟨1⟩⟩).2.2
      .detachMailbox .pmPut := by
  have h1 := wakelock_mailbox_power_ordering ⟨false, 0, 0⟩ ⟨some 1, ⟨0⟩⟩
  have h2 := wakelock_mailbox_power_ordering ⟨false, 0, 0⟩ ⟨some 1, ⟨1⟩⟩
  refine ⟨?_, h1.2.1 (by decide), ?_, h2.2.2.2 (by decide)⟩
  · rw [h1.1, if_pos (by decide)]
  · rw [h2.2.2.1, if_pos (by decide)]

/-- C7: `edgetpu_client_remove` leaves the client's device group exactly when
it belongs to one, and calls `edgetpu_pm_put` exactly once per wakelock
acquisition the client held at removal time. -/
theorem edgetpu_client_remove_spec (c : RemoveClientSt) :
    countEffect (edgetpu_client_remove c) .pmPut = c.wakelockReqCount ∧
    countEffect (edgetpu_client_remove c) .groupLeave =
      (if c.group.isSome then 1 else 0) := by
  unfold edgetpu_client_remove
  cases hg : c.group <;> cases hL : c.perdieLogEvent <;> cases hT : c.perdieTraceEvent <;>
    simp [countEffect, List.filter_append, List.filter_replicate]

/-- C10 (amended): every group-scoped operation at the device-file boundary
whose argument copy-in succeeded — and, for the VII command/response paths,
whose in-kernel-VII support check passed — fails with -EINVAL and performs
no side effects when the calling client does not belong to a device group. -/
theorem group_member_check_spec (c : Client) (hg : c.group = none) :
    (∀ setRet, edgetpu_ioctl_set_eventfd true c setRet = (-EINVAL, [])) ∧
    edgetpu_ioctl_unset_eventfd c = (-EINVAL, []) ∧
    (∀ mapRet copyOutOk,
      edgetpu_ioctl_map_buffer true c mapRet copyOutOk = (-EINVAL, [])) ∧
    (∀ unmapRet, edgetpu_ioctl_unmap_buffer true c unmapRet = (-EINVAL, [])) ∧
    (∀ syncRet, edgetpu_ioctl_sync_buffer true c syncRet = (-EINVAL, [])) ∧
    (∀ mapRet copyOutOk,
      edgetpu_ioctl_map_dmabuf true c mapRet copyOutOk = (-EINVAL, [])) ∧
    (∀ unmapRet, edgetpu_ioctl_unmap_dmabuf true c unmapRet = (-EINVAL, [])) ∧
    (∀ createRet copyOutOk,
      edgetpu_ioctl_sync_fence_create true c createRet copyOutOk = (-EINVAL, [])) ∧
    (∀ inFenceRet outFenceRet sendRet,
      edgetpu_ioctl_vii_command true true true c inFenceRet outFenceRet sendRet =
        (-EINVAL, [])) ∧
    (∀ getRet copyOutOk,
      edgetpu_ioctl_vii_response true true c getRet copyOutOk = (-EINVAL, [])) := by
  have hn : c.group.isNone = true := by rw [hg]; rfl
  refine ⟨?_, ?_, ?_, ?_, ?_, ?_, ?_, ?_, ?_, ?_⟩ <;>
    intros <;>
    simp [edgetpu_ioctl_set_eventfd, edgetpu_ioctl_unset_eventfd,
      edgetpu_ioctl_map_buffer, edgetpu_ioctl_unmap_buffer,
      edgetpu_ioctl_sync_buffer, edgetpu_ioctl_map_dmabuf,
      edgetpu_ioctl_unmap_dmabuf, edgetpu_ioctl_sync_fence_create,
      edgetpu_ioctl_vii_command, edgetpu_ioctl_vii_response, hn]

/-- C10 counterexample: a groupless client issuing a VII command on a device
without in-kernel VII fails with -EOPNOTSUPP, not -EINVAL: the support check
precedes the group-membership check. -/
theorem group_member_check_counterexample :
    edgetpu_ioctl_vii_command true false true ⟨none, ⟨0⟩⟩ 0 0 0 =
      (-EOPNOTSUPP, []) ∧
    (-EOPNOTSUPP : Int) ≠ -EINVAL := by
  decide

theorem group_member_check_spec_witness :
    edgetpu_ioctl_unset_eventfd ⟨none, ⟨0⟩⟩ = (-EINVAL, []) ∧
    edgetpu_ioctl_vii_command true true true ⟨none, ⟨0⟩⟩ 0 0 0 = (-EINVAL, []) := by
  have h := group_member_check_spec ⟨none, ⟨0⟩⟩ rfl
  exact ⟨h.2.1, h.2.2.2.2.2.2.2.2.1 0 0 0⟩

end LinuxPixel
